import Mathlib

/-!
Verification of the Kafka logging-endpoint reconciliation handler of the
Fastly provider (`block_fastly_service_v1_logging_kafka.go`), as a shallow
embedding in Lean.

Go values of type `interface{}` appearing in the resource maps are modelled by
the inductive type `Val`; Go maps `map[string]interface{}` are modelled by
association lists `Record` (keys unique, lookup returns the first match);
resources taken from a `schema.Set` (which are `interface{}` and may fail the
type assertion to a map) are modelled by `Resource`.  The Fastly API client is
modelled as a response function from calls to optional errors; `Process`
returns the ordered trace of API calls it issued together with its result.
-/

set_option autoImplicit false

namespace Fastly

/-- A dynamic value (`interface{}`) stored in a resource map, as produced by
the terraform schema: strings, booleans, machine integers, or the nil
interface value. -/
inductive Val where
  | vstr (s : String)
  | vbool (b : Bool)
  | vint (n : Int)
  | vnull
deriving DecidableEq, Repr

/-- A Go `map[string]interface{}`: an association list with lookup returning
the first binding for a key. -/
abbrev Record := List (String × Val)

/-- An element of a `schema.Set`: either a genuine `map[string]interface{}` or
some other value (carrying an opaque printed form), on which the handler's type
assertion to a map fails. -/
inductive Resource where
  | rmap (r : Record)
  | other (s : String)
deriving DecidableEq, Repr

/-- Lookup with presence information, modelling Go `v, ok := m[k]`. -/
def Record.find : Record → String → Option Val
  | [], _ => none
  | p :: ps, k => if p.1 = k then some p.2 else Record.find ps k

/-- Lookup modelling the Go expression `m[k]`, which yields the zero interface
value `nil` when the key is absent. -/
def Record.get (r : Record) (k : String) : Val :=
  (Record.find r k).getD Val.vnull

/-- The Go type assertion `v.(string)`.  On a non-string value the Go program
panics; the model totalises with the empty string. -/
def Val.asString : Val → String
  | .vstr s => s
  | _ => ""

/-- The Go type assertion `v.(bool)`; totalised with `false`. -/
def Val.asBool : Val → Bool
  | .vbool b => b
  | _ => false

/-- The Go type assertion `v.(int)`; totalised with `0`. -/
def Val.asInt : Val → Int
  | .vint n => n
  | _ => 0

/-- The Go conversion `uint(n)` of an `int`, which reduces modulo `2 ^ 64`. -/
def intToUint (n : Int) : Nat :=
  (n % (2 ^ 64)).toNat

/-- The keys of a record. -/
def Record.keys (r : Record) : List String :=
  r.map Prod.fst

/-- Extensional equality of two records as maps (Go `reflect.DeepEqual` on
`map[string]interface{}`): the same lookup result at every key of either. -/
def recEq (a b : Record) : Bool :=
  (Record.keys a ++ Record.keys b).all fun k => decide (Record.find a k = Record.find b k)

/-- Equality of two set elements as Go `reflect.DeepEqual` sees them: map
equality on maps, and tag equality otherwise. -/
def resourceEq : Resource → Resource → Bool
  | .rmap a, .rmap b => recEq a b
  | .other a, .other b => decide (a = b)
  | _, _ => false

/-- The Go type assertion `resource.(map[string]interface{})` as used after a
successful diff; totalised with the empty map (the Go program panics on a
non-map, a case the diff has already ruled out when this is reached). -/
def Resource.asMap : Resource → Record
  | .rmap r => r
  | .other _ => []

/-- The key-extractor closure passed to `NewSetDiff` in `Process`
(block_fastly_service_v1_logging_kafka.go lines 180-186): assert the resource
to a map, failing with an error if it is not one, and return its `name` entry
(the nil interface value when absent). -/
def kafkaKeyFunc : Resource → Except String Val
  | .rmap t => .ok (Record.get t "name")
  | .other s => .error ("resource failed to be type asserted: " ++ s)

/-- The three-way (plus unchanged) partition produced by the set-diff
utility. -/
structure DiffResult where
  added : List Resource
  deleted : List Resource
  modified : List Resource
  unmodified : List Resource
deriving DecidableEq, Repr

/-- Extract the key of every resource in order, aborting with the extractor's
error on the first failure (the spec: key extraction must be total over all
records; a failed extraction aborts the diff with an error). -/
def keyedList (keyFunc : Resource → Except String Val) :
    List Resource → Except String (List (Val × Resource))
  | [] => .ok []
  | r :: rs =>
    match keyFunc r with
    | .error m => .error m
    | .ok k =>
      match keyedList keyFunc rs with
      | .error m => .error m
      | .ok l => .ok ((k, r) :: l)

/-- Whether a keyed list contains an entry with the given key. -/
def hasKey (k : Val) : List (Val × Resource) → Bool
  | [] => false
  | p :: ps => if p.1 = k then true else hasKey k ps

/-- The first resource with the given key in a keyed list. -/
def findByKey (k : Val) : List (Val × Resource) → Option Resource
  | [] => none
  | p :: ps => if p.1 = k then some p.2 else findByKey k ps

/-- Modelled from the spec: the `Diff` operation of the generic set
reconciliation utility (`NewSetDiff` / `SetDiff.Diff`, repository code not
under src/).  Given an old and a new set of records, each keyed by the
user-supplied extractor, it produces the partitions Added (in new, not in
old), Deleted (in old, not in new), Modified (in both but differing, holding
the new version of the record, which the caller then uses to build the
update), and the unchanged records; a failed key extraction aborts the diff
with that error. -/
def SetDiff.Diff (keyFunc : Resource → Except String Val)
    (oldSet newSet : List Resource) : Except String DiffResult :=
  match keyedList keyFunc oldSet with
  | .error m => .error m
  | .ok oldKeyed =>
    match keyedList keyFunc newSet with
    | .error m => .error m
    | .ok newKeyed =>
      .ok
        { added := (newKeyed.filter fun p => !hasKey p.1 oldKeyed).map Prod.snd
          deleted := (oldKeyed.filter fun p => !hasKey p.1 newKeyed).map Prod.snd
          modified :=
            (newKeyed.filter fun p =>
              match findByKey p.1 oldKeyed with
              | some o => !resourceEq o p.2
              | none => false).map Prod.snd
          unmodified :=
            (newKeyed.filter fun p =>
              match findByKey p.1 oldKeyed with
              | some o => resourceEq o p.2
              | none => false).map Prod.snd }

/-- Whether the extractor assigns the given key to the resource. -/
def keyMatches (keyFunc : Resource → Except String Val) (k : Val)
    (r : Resource) : Bool :=
  match keyFunc r with
  | .ok j => decide (j = k)
  | .error _ => false

/-- The old-set element whose key matches that of the given modified record,
if any. -/
def SetDiff.matchOld (keyFunc : Resource → Except String Val)
    (modified : Record) (oldSet : List Resource) : Option Record :=
  match keyFunc (.rmap modified) with
  | .error _ => none
  | .ok k =>
    match oldSet.find? (keyMatches keyFunc k) with
    | some (.rmap o) => some o
    | _ => none

/-- Modelled from the spec: the `Filter` operation of the set reconciliation
utility (repository code not under src/), which surfaces to the caller only
the changed fields of a modified record: the bindings of the modified record
whose value differs from the matching old record's value at that key.  When no
old record matches, the whole record is returned. -/
def SetDiff.Filter (keyFunc : Resource → Except String Val)
    (modified : Record) (oldSet : List Resource) : Record :=
  match SetDiff.matchOld keyFunc modified oldSet with
  | some o => modified.filter fun p => !(decide (Record.find o p.1 = some p.2))
  | none => modified

/-- The service type carried by the handler's metadata; the VCL type makes the
four VCL formatting/placement attributes part of the block schema. -/
inductive ServiceType where
  | vcl
  | wasm
deriving DecidableEq, Repr

/-- The input of the CreateKafka API call, as populated by `buildCreate`
(all fields of `gofastly.CreateKafkaInput` that the handler sets). -/
structure CreateKafkaInput where
  serviceID : String
  serviceVersion : Int
  name : String
  brokers : String
  topic : String
  requiredACKs : String
  useTLS : Bool
  compressionCodec : String
  tlsCACert : String
  tlsClientCert : String
  tlsClientKey : String
  tlsHostname : String
  format : String
  formatVersion : Nat
  placement : String
  responseCondition : String
  parseLogKeyvals : Bool
  requestMaxBytes : Nat
  authMethod : String
  user : String
  password : String
deriving DecidableEq, Repr

/-- The input of the UpdateKafka API call: the identity triple is always set,
every other field is a pointer that is nil (`none`) unless `Process` set
it. -/
structure UpdateKafkaInput where
  serviceID : String
  serviceVersion : Int
  name : String
  brokers : Option String
  topic : Option String
  requiredACKs : Option String
  useTLS : Option Bool
  compressionCodec : Option String
  format : Option String
  formatVersion : Option Nat
  responseCondition : Option String
  placement : Option String
  tlsCACert : Option String
  tlsHostname : Option String
  tlsClientCert : Option String
  tlsClientKey : Option String
  parseLogKeyvals : Option Bool
  requestMaxBytes : Option Nat
  authMethod : Option String
  user : Option String
  password : Option String
deriving DecidableEq, Repr

/-- The input of the DeleteKafka API call. -/
structure DeleteKafkaInput where
  serviceID : String
  serviceVersion : Int
  name : String
deriving DecidableEq, Repr

/-- An API call issued by the handler against the Fastly client. -/
inductive ApiCall where
  | create (i : CreateKafkaInput)
  | update (i : UpdateKafkaInput)
  | delete (i : DeleteKafkaInput)
deriving DecidableEq, Repr

/-- An error returned by the Fastly API client: either a `gofastly.HTTPError`
with its status code, or any other error (carrying its message). -/
inductive ApiError where
  | httpError (statusCode : Nat)
  | otherError (msg : String)
deriving DecidableEq, Repr

/-- The Fastly API client, modelled by its response behaviour: for each call,
either an error or success (`none`). -/
def Conn : Type := ApiCall → Option ApiError

/-- An error returned by `Process`: either the diff aborted with the
extractor's error, or an API error passed through unchanged. -/
inductive PError where
  | diffErr (msg : String)
  | apiErr (e : ApiError)
deriving DecidableEq, Repr

/-- Modelled from the spec: `getVCLLoggingAttributes` of the shared
`DefaultServiceAttributeHandler` (repository code not under src/): for the VCL
service type it reads the four VCL placement/formatting fields from the
record, for other service types those attributes are not part of the block and
it returns their zero values (with no format version). -/
def getVCLLoggingAttributes (st : ServiceType) (df : Record) :
    String × Option Nat × String × String :=
  match st with
  | .vcl =>
    ((Record.get df "format").asString,
      some (intToUint (Record.get df "format_version").asInt),
      (Record.get df "placement").asString,
      (Record.get df "response_condition").asString)
  | .wasm => ("", none, "", "")

/-- Modelled from the spec: `uintOrDefault` (repository code not under src/),
which dereferences an optional uint, defaulting to 0. -/
def uintOrDefault : Option Nat → Nat
  | some n => n
  | none => 0

/-- `buildCreate` (lines 398-425): transcribe the resource map into a
CreateKafkaInput, with the VCL attributes supplied by
`getVCLLoggingAttributes`. -/
def buildCreate (st : ServiceType) (kafkaMap : Record) (serviceID : String)
    (serviceVersion : Int) : CreateKafkaInput :=
  let vla := getVCLLoggingAttributes st kafkaMap
  { serviceID := serviceID
    serviceVersion := serviceVersion
    name := (Record.get kafkaMap "name").asString
    brokers := (Record.get kafkaMap "brokers").asString
    topic := (Record.get kafkaMap "topic").asString
    requiredACKs := (Record.get kafkaMap "required_acks").asString
    useTLS := (Record.get kafkaMap "use_tls").asBool
    compressionCodec := (Record.get kafkaMap "compression_codec").asString
    tlsCACert := (Record.get kafkaMap "tls_ca_cert").asString
    tlsClientCert := (Record.get kafkaMap "tls_client_cert").asString
    tlsClientKey := (Record.get kafkaMap "tls_client_key").asString
    tlsHostname := (Record.get kafkaMap "tls_hostname").asString
    format := vla.1
    formatVersion := uintOrDefault vla.2.1
    placement := vla.2.2.1
    responseCondition := vla.2.2.2
    parseLogKeyvals := (Record.get kafkaMap "parse_log_keyvals").asBool
    requestMaxBytes := intToUint (Record.get kafkaMap "request_max_bytes").asInt
    authMethod := (Record.get kafkaMap "auth_method").asString
    user := (Record.get kafkaMap "user").asString
    password := (Record.get kafkaMap "password").asString }

/-- `buildDelete` (lines 427-435): the delete input is the identity triple
alone. -/
def buildDelete (kafkaMap : Record) (serviceID : String)
    (serviceVersion : Int) : DeleteKafkaInput :=
  { serviceID := serviceID
    serviceVersion := serviceVersion
    name := (Record.get kafkaMap "name").asString }

/-- The UpdateKafkaInput built inline by the modified-resources loop of
`Process` (lines 240-307): the identity triple from the resource, and each
optional field set exactly when its key survived the `Filter` of changed
fields. -/
def buildUpdateOpts (serviceID : String) (serviceVersion : Int)
    (resource modified : Record) : UpdateKafkaInput :=
  { serviceID := serviceID
    serviceVersion := serviceVersion
    name := (Record.get resource "name").asString
    brokers := (Record.find modified "brokers").map Val.asString
    topic := (Record.find modified "topic").map Val.asString
    requiredACKs := (Record.find modified "required_acks").map Val.asString
    useTLS := (Record.find modified "use_tls").map Val.asBool
    compressionCodec := (Record.find modified "compression_codec").map Val.asString
    format := (Record.find modified "format").map Val.asString
    formatVersion := (Record.find modified "format_version").map fun v => intToUint v.asInt
    responseCondition := (Record.find modified "response_condition").map Val.asString
    placement := (Record.find modified "placement").map Val.asString
    tlsCACert := (Record.find modified "tls_ca_cert").map Val.asString
    tlsHostname := (Record.find modified "tls_hostname").map Val.asString
    tlsClientCert := (Record.find modified "tls_client_cert").map Val.asString
    tlsClientKey := (Record.find modified "tls_client_key").map Val.asString
    parseLogKeyvals := (Record.find modified "parse_log_keyvals").map Val.asBool
    requestMaxBytes := (Record.find modified "request_max_bytes").map fun v => intToUint v.asInt
    authMethod := (Record.find modified "auth_method").map Val.asString
    user := (Record.find modified "user").map Val.asString
    password := (Record.find modified "password").map Val.asString }

/-- `createKafka` (lines 340-343): issue the create call and return its error
verbatim. -/
def createKafka (conn : Conn) (i : CreateKafkaInput) : Option ApiError :=
  conn (.create i)

/-- `deleteKafka` (lines 345-357): issue the delete call; an `HTTPError` with
status 404 counts as success, every other error is returned unchanged. -/
def deleteKafka (conn : Conn) (i : DeleteKafkaInput) : Option ApiError :=
  match conn (.delete i) with
  | some (.httpError code) => if code ≠ 404 then some (.httpError code) else none
  | some e => some e
  | none => none

/-- The DELETE loop of `Process` (lines 193-203): for each deleted resource
build the delete input and call `deleteKafka`, returning its error as soon as
one fails; the first component is the ordered trace of calls issued. -/
def runDeletes (conn : Conn) (serviceID : String) (latestVersion : Int) :
    List Resource → List ApiCall × Option PError
  | [] => ([], none)
  | r :: rs =>
    let opts := buildDelete r.asMap serviceID latestVersion
    match deleteKafka conn opts with
    | some e => ([.delete opts], some (.apiErr e))
    | none =>
      let rest := runDeletes conn serviceID latestVersion rs
      (.delete opts :: rest.1, rest.2)

/-- The CREATE loop of `Process` (lines 205-230): resources whose `name` entry
is absent, or is the empty string, are skipped silently (the StateFunc
defunct-diff workaround); otherwise build the create input and call
`createKafka`, returning its error as soon as one fails. -/
def runCreates (st : ServiceType) (conn : Conn) (serviceID : String)
    (latestVersion : Int) : List Resource → List ApiCall × Option PError
  | [] => ([], none)
  | r :: rs =>
    let res := r.asMap
    match Record.find res "name" with
    | none => runCreates st conn serviceID latestVersion rs
    | some v =>
      if v.asString = "" then
        runCreates st conn serviceID latestVersion rs
      else
        let opts := buildCreate st res serviceID latestVersion
        match createKafka conn opts with
        | some e => ([.create opts], some (.apiErr e))
        | none =>
          let rest := runCreates st conn serviceID latestVersion rs
          (.create opts :: rest.1, rest.2)

/-- The UPDATE loop of `Process` (lines 237-314): for each modified resource
build the update input from the changed fields selected by `Filter` against
the old set, issue the update, and return its error as soon as one fails. -/
def runUpdates (conn : Conn) (serviceID : String) (latestVersion : Int)
    (oldSet : List Resource) : List Resource → List ApiCall × Option PError
  | [] => ([], none)
  | r :: rs =>
    let res := r.asMap
    let opts := buildUpdateOpts serviceID latestVersion res
      (SetDiff.Filter kafkaKeyFunc res oldSet)
    match conn (.update opts) with
    | some e => ([.update opts], some (.apiErr e))
    | none =>
      let rest := runUpdates conn serviceID latestVersion oldSet rs
      (.update opts :: rest.1, rest.2)

/-- `Process` (lines 166-317): diff the old and new sets keyed by `name`,
aborting with the diff's error; then run the delete, create and update loops
in that order, stopping at the first failing call.  The result pairs the
ordered trace of API calls issued with the returned error (`none` for
success). -/
def Process (st : ServiceType) (conn : Conn) (serviceID : String)
    (latestVersion : Int) (oldSet newSet : List Resource) :
    List ApiCall × Option PError :=
  match SetDiff.Diff kafkaKeyFunc oldSet newSet with
  | .error m => ([], some (.diffErr m))
  | .ok dr =>
    let del := runDeletes conn serviceID latestVersion dr.deleted
    match del.2 with
    | some e => (del.1, some e)
    | none =>
      let cre := runCreates st conn serviceID latestVersion dr.added
      match cre.2 with
      | some e => (del.1 ++ cre.1, some e)
      | none =>
        let upd := runUpdates conn serviceID latestVersion oldSet dr.modified
        (del.1 ++ cre.1 ++ upd.1, upd.2)

/-- A Kafka logging endpoint as returned by the Fastly API
(`gofastly.Kafka`), with the fields `flattenKafka` reads. -/
structure Kafka where
  name : String
  topic : String
  brokers : String
  compressionCodec : String
  requiredACKs : String
  useTLS : Bool
  tlsCACert : String
  tlsClientCert : String
  tlsClientKey : String
  tlsHostname : String
  format : String
  formatVersion : Nat
  placement : String
  responseCondition : String
  parseLogKeyvals : Bool
  requestMaxBytes : Nat
  authMethod : String
  user : String
  password : String
deriving DecidableEq, Repr

/-- `flattenKafka` (lines 359-396): convert each endpoint into a state map,
then prune every entry whose value is the empty string (the Go comparison
`v == ""` is true exactly on string values equal to `""`). -/
def flattenKafka (kafkaList : List Kafka) : List Record :=
  kafkaList.map fun s =>
    let flatKafka : Record :=
      [("name", .vstr s.name),
        ("topic", .vstr s.topic),
        ("brokers", .vstr s.brokers),
        ("compression_codec", .vstr s.compressionCodec),
        ("required_acks", .vstr s.requiredACKs),
        ("use_tls", .vbool s.useTLS),
        ("tls_ca_cert", .vstr s.tlsCACert),
        ("tls_client_cert", .vstr s.tlsClientCert),
        ("tls_client_key", .vstr s.tlsClientKey),
        ("tls_hostname", .vstr s.tlsHostname),
        ("format", .vstr s.format),
        ("format_version", .vint (Int.ofNat s.formatVersion)),
        ("placement", .vstr s.placement),
        ("response_condition", .vstr s.responseCondition),
        ("parse_log_keyvals", .vbool s.parseLogKeyvals),
        ("request_max_bytes", .vint (Int.ofNat s.requestMaxBytes)),
        ("auth_method", .vstr s.authMethod),
        ("user", .vstr s.user),
        ("password", .vstr s.password)]
    flatKafka.filter fun p => !(decide (p.2 = .vstr ""))

/-- Whether an API call is a delete. -/
def ApiCall.isDelete : ApiCall → Bool
  | .delete _ => true
  | _ => false

/-- Whether an API call is a create. -/
def ApiCall.isCreate : ApiCall → Bool
  | .create _ => true
  | _ => false

/-- Whether an API call is an update. -/
def ApiCall.isUpdate : ApiCall → Bool
  | .update _ => true
  | _ => false

/-- A client whose every response is an HTTP 404 error. -/
def connAll404 : Conn := fun _ => some (.httpError 404)

/-- A Kafka endpoint whose optional string fields are all empty. -/
def kafka0 : Kafka :=
  ⟨"n", "", "", "", "", false, "", "", "", "", "", 0, "", "", false, 0, "", "", ""⟩

/-- The flattening of `kafka0`: exactly the non-string-valued fields and the
nonempty name survive. -/
def flatKafka0 : Record :=
  [("name", Val.vstr "n"), ("use_tls", Val.vbool false),
    ("format_version", Val.vint 0), ("parse_log_keyvals", Val.vbool false),
    ("request_max_bytes", Val.vint 0)]

/-- The keys of the optional fields of an update input, in schema naming. -/
def updateFieldKeys : List String :=
  ["brokers", "topic", "required_acks", "use_tls", "compression_codec",
    "format", "format_version", "response_condition", "placement",
    "tls_ca_cert", "tls_hostname", "tls_client_cert", "tls_client_key",
    "parse_log_keyvals", "request_max_bytes", "auth_method", "user",
    "password"]

/-- Whether the optional field of an update input named by the given schema
key is set (the pointer is non-nil). -/
def fieldIsSet (o : UpdateKafkaInput) : String → Bool
  | "brokers" => o.brokers.isSome
  | "topic" => o.topic.isSome
  | "required_acks" => o.requiredACKs.isSome
  | "use_tls" => o.useTLS.isSome
  | "compression_codec" => o.compressionCodec.isSome
  | "format" => o.format.isSome
  | "format_version" => o.formatVersion.isSome
  | "response_condition" => o.responseCondition.isSome
  | "placement" => o.placement.isSome
  | "tls_ca_cert" => o.tlsCACert.isSome
  | "tls_hostname" => o.tlsHostname.isSome
  | "tls_client_cert" => o.tlsClientCert.isSome
  | "tls_client_key" => o.tlsClientKey.isSome
  | "parse_log_keyvals" => o.parseLogKeyvals.isSome
  | "request_max_bytes" => o.requestMaxBytes.isSome
  | "auth_method" => o.authMethod.isSome
  | "user" => o.user.isSome
  | "password" => o.password.isSome
  | _ => false

instance : DecidableEq (Except String Val)
  | .ok a, .ok b =>
    if h : a = b then .isTrue (by rw [h])
    else .isFalse fun he => h (Except.ok.inj he)
  | .ok _, .error _ => .isFalse fun he => Except.noConfusion he
  | .error _, .ok _ => .isFalse fun he => Except.noConfusion he
  | .error m, .error m2 =>
    if h : m = m2 then .isTrue (by rw [h])
    else .isFalse fun he => h (Except.error.inj he)

/-- The old set of the C2 witness. -/
def oldC2 : List Resource :=
  [Resource.rmap [("name", Val.vstr "a"), ("topic", Val.vstr "1")],
    Resource.rmap [("name", Val.vstr "b")]]

/-- The new set of the C2 witness. -/
def newC2 : List Resource :=
  [Resource.rmap [("name", Val.vstr "a"), ("topic", Val.vstr "2")],
    Resource.rmap [("name", Val.vstr "c")]]

/-- The diff of the C2 witness sets. -/
def drC2 : DiffResult :=
  { added := [Resource.rmap [("name", Val.vstr "c")]]
    deleted := [Resource.rmap [("name", Val.vstr "b")]]
    modified := [Resource.rmap [("name", Val.vstr "a"), ("topic", Val.vstr "2")]]
    unmodified := [] }

/-- Whether a call succeeds against the given client, counting an HTTP 404
answer to a delete as success (as `deleteKafka` does). -/
def callOK (conn : Conn) (c : ApiCall) : Bool :=
  match conn c, c with
  | none, _ => true
  | some (.httpError code), .delete _ => decide (code = 404)
  | some _, _ => false

/-- A client that fails every create call with a generic error and accepts
everything else. -/
def connFailCreate : Conn := fun c =>
  match c with
  | .create _ => some (.otherError "boom")
  | _ => none

/-- The diff key of a resource: its `name` entry (nil when absent), as the
extractor of `Process` computes it on map resources. -/
def nameKey (r : Resource) : Val :=
  Record.get r.asMap "name"

/-- Whether the create loop actually creates the resource: its `name` entry
is present and is not the empty string. -/
def hasRealName (r : Resource) : Bool :=
  match Record.find r.asMap "name" with
  | none => false
  | some v => !(decide (v.asString = ""))

/-- A client that accepts every call. -/
def connOK : Conn := fun _ => none

/-- The property asserted by claim C1 as stated: over old and new sets of
Kafka logging records (map records carrying a string name) keyed injectively
by name within each set, against a client that never fails, `Process` issues
a create call for exactly the records present in the new set and absent (by
name) from the old set, a delete call for exactly the records present in the
old set and absent from the new set, and an update call for exactly the
records present in both but with at least one changed field. -/
def C1Statement : Prop :=
  ∀ (st : ServiceType) (conn : Conn) (sid : String) (ver : Int)
    (old new : List Resource),
    (∀ r ∈ old ++ new, ∃ rec s, r = Resource.rmap rec ∧
      Record.find rec "name" = some (Val.vstr s)) →
    (∀ r1 ∈ old, ∀ r2 ∈ old, nameKey r1 = nameKey r2 → r1 = r2) →
    (∀ r1 ∈ new, ∀ r2 ∈ new, nameKey r1 = nameKey r2 → r1 = r2) →
    (∀ c, conn c = none) →
    ((∀ r ∈ new,
      ((¬ ∃ r2 ∈ old, nameKey r2 = nameKey r) ↔
        .create (buildCreate st r.asMap sid ver) ∈
          (Process st conn sid ver old new).1)) ∧
     (∀ r ∈ old,
      ((¬ ∃ r2 ∈ new, nameKey r2 = nameKey r) ↔
        .delete (buildDelete r.asMap sid ver) ∈
          (Process st conn sid ver old new).1)) ∧
     (∀ r ∈ new,
      ((∃ r2 ∈ old, nameKey r2 = nameKey r ∧ resourceEq r2 r = false) ↔
        .update (buildUpdateOpts sid ver r.asMap
            (SetDiff.Filter kafkaKeyFunc r.asMap old)) ∈
          (Process st conn sid ver old new).1)))


/-!  Basic lemmas about records and the loops. -/

theorem find_eq_none_iff (r : Record) (k : String) :
    Record.find r k = none ↔ k ∉ Record.keys r := by
  induction r with
  | nil => simp [Record.find, Record.keys]
  | cons p ps ih =>
    by_cases h : p.1 = k
    · simp [Record.find, Record.keys, h]
    · rw [Record.find, if_neg h, ih]
      show _ ↔ k ∉ p.1 :: Record.keys ps
      simp only [List.mem_cons]
      constructor
      · intro hk hor
        rcases hor with hor | hor
        · exact h hor.symm
        · exact hk hor
      · intro hk hik
        exact hk (Or.inr hik)

/-!  Unfolding equations for the three loops of `Process`. -/

theorem runDeletes_nil (conn : Conn) (sid : String) (ver : Int) :
    runDeletes conn sid ver [] = ([], none) := rfl

theorem runDeletes_cons_err (conn : Conn) (sid : String) (ver : Int)
    (r : Resource) (rs : List Resource) (e : ApiError)
    (h : deleteKafka conn (buildDelete r.asMap sid ver) = some e) :
    runDeletes conn sid ver (r :: rs) =
      ([.delete (buildDelete r.asMap sid ver)], some (.apiErr e)) := by
  simp [runDeletes, h]

theorem runDeletes_cons_ok (conn : Conn) (sid : String) (ver : Int)
    (r : Resource) (rs : List Resource)
    (h : deleteKafka conn (buildDelete r.asMap sid ver) = none) :
    runDeletes conn sid ver (r :: rs) =
      (.delete (buildDelete r.asMap sid ver) :: (runDeletes conn sid ver rs).1,
        (runDeletes conn sid ver rs).2) := by
  simp [runDeletes, h]

theorem runCreates_nil (st : ServiceType) (conn : Conn) (sid : String)
    (ver : Int) : runCreates st conn sid ver [] = ([], none) := rfl

theorem runCreates_cons_skip (st : ServiceType) (conn : Conn) (sid : String)
    (ver : Int) (r : Resource) (rs : List Resource)
    (h : Record.find r.asMap "name" = none ∨
      ∃ v, Record.find r.asMap "name" = some v ∧ v.asString = "") :
    runCreates st conn sid ver (r :: rs) = runCreates st conn sid ver rs := by
  rcases h with h | ⟨v, hv, hs⟩
  · simp [runCreates, h]
  · simp [runCreates, hv, hs]

theorem runCreates_cons_err (st : ServiceType) (conn : Conn) (sid : String)
    (ver : Int) (r : Resource) (rs : List Resource) (v : Val) (e : ApiError)
    (hn : Record.find r.asMap "name" = some v) (hv : v.asString ≠ "")
    (h : createKafka conn (buildCreate st r.asMap sid ver) = some e) :
    runCreates st conn sid ver (r :: rs) =
      ([.create (buildCreate st r.asMap sid ver)], some (.apiErr e)) := by
  simp [runCreates, hn, hv, h]

theorem runCreates_cons_ok (st : ServiceType) (conn : Conn) (sid : String)
    (ver : Int) (r : Resource) (rs : List Resource) (v : Val)
    (hn : Record.find r.asMap "name" = some v) (hv : v.asString ≠ "")
    (h : createKafka conn (buildCreate st r.asMap sid ver) = none) :
    runCreates st conn sid ver (r :: rs) =
      (.create (buildCreate st r.asMap sid ver) ::
          (runCreates st conn sid ver rs).1,
        (runCreates st conn sid ver rs).2) := by
  simp [runCreates, hn, hv, h]

theorem runUpdates_nil (conn : Conn) (sid : String) (ver : Int)
    (oldSet : List Resource) : runUpdates conn sid ver oldSet [] = ([], none) := rfl

theorem runUpdates_cons_err (conn : Conn) (sid : String) (ver : Int)
    (oldSet : List Resource) (r : Resource) (rs : List Resource) (e : ApiError)
    (h : conn (.update (buildUpdateOpts sid ver r.asMap
        (SetDiff.Filter kafkaKeyFunc r.asMap oldSet))) = some e) :
    runUpdates conn sid ver oldSet (r :: rs) =
      ([.update (buildUpdateOpts sid ver r.asMap
          (SetDiff.Filter kafkaKeyFunc r.asMap oldSet))], some (.apiErr e)) := by
  simp [runUpdates, h]

theorem runUpdates_cons_ok (conn : Conn) (sid : String) (ver : Int)
    (oldSet : List Resource) (r : Resource) (rs : List Resource)
    (h : conn (.update (buildUpdateOpts sid ver r.asMap
        (SetDiff.Filter kafkaKeyFunc r.asMap oldSet))) = none) :
    runUpdates conn sid ver oldSet (r :: rs) =
      (.update (buildUpdateOpts sid ver r.asMap
            (SetDiff.Filter kafkaKeyFunc r.asMap oldSet)) ::
          (runUpdates conn sid ver oldSet rs).1,
        (runUpdates conn sid ver oldSet rs).2) := by
  simp [runUpdates, h]

theorem runDeletes_calls (conn : Conn) (sid : String) (ver : Int)
    (rs : List Resource) :
    ∀ c ∈ (runDeletes conn sid ver rs).1, c.isDelete = true := by
  induction rs with
  | nil => intro c hc; simp [runDeletes] at hc
  | cons r rs ih =>
    intro c hc
    cases h : deleteKafka conn (buildDelete r.asMap sid ver) with
    | some e =>
      rw [runDeletes_cons_err conn sid ver r rs e h] at hc
      simp at hc
      subst hc
      rfl
    | none =>
      rw [runDeletes_cons_ok conn sid ver r rs h] at hc
      simp at hc
      rcases hc with hc | hc
      · subst hc; rfl
      · exact ih c hc

theorem runCreates_calls (st : ServiceType) (conn : Conn) (sid : String)
    (ver : Int) (rs : List Resource) :
    ∀ c ∈ (runCreates st conn sid ver rs).1, c.isCreate = true := by
  induction rs with
  | nil => intro c hc; simp [runCreates] at hc
  | cons r rs ih =>
    intro c hc
    cases hn : Record.find r.asMap "name" with
    | none =>
      rw [runCreates_cons_skip st conn sid ver r rs (Or.inl hn)] at hc
      exact ih c hc
    | some v =>
      by_cases hv : v.asString = ""
      · rw [runCreates_cons_skip st conn sid ver r rs (Or.inr ⟨v, hn, hv⟩)] at hc
        exact ih c hc
      · cases h : createKafka conn (buildCreate st r.asMap sid ver) with
        | some e =>
          rw [runCreates_cons_err st conn sid ver r rs v e hn hv h] at hc
          simp at hc
          subst hc
          rfl
        | none =>
          rw [runCreates_cons_ok st conn sid ver r rs v hn hv h] at hc
          simp at hc
          rcases hc with hc | hc
          · subst hc; rfl
          · exact ih c hc

theorem runUpdates_calls (conn : Conn) (sid : String) (ver : Int)
    (oldSet : List Resource) (rs : List Resource) :
    ∀ c ∈ (runUpdates conn sid ver oldSet rs).1, c.isUpdate = true := by
  induction rs with
  | nil => intro c hc; simp [runUpdates] at hc
  | cons r rs ih =>
    intro c hc
    cases h : conn (.update (buildUpdateOpts sid ver r.asMap
        (SetDiff.Filter kafkaKeyFunc r.asMap oldSet))) with
    | some e =>
      rw [runUpdates_cons_err conn sid ver oldSet r rs e h] at hc
      simp at hc
      subst hc
      rfl
    | none =>
      rw [runUpdates_cons_ok conn sid ver oldSet r rs h] at hc
      simp at hc
      rcases hc with hc | hc
      · subst hc; rfl
      · exact ih c hc

/-- Claim C10: within a single `Process` pass the trace of issued API calls
splits as all deletes first, then all creates, then all updates. -/
theorem process_call_order (st : ServiceType) (conn : Conn) (sid : String)
    (ver : Int) (oldSet newSet : List Resource) :
    ∃ t1 t2 t3 : List ApiCall,
      (Process st conn sid ver oldSet newSet).1 = t1 ++ t2 ++ t3 ∧
      (∀ c ∈ t1, c.isDelete = true) ∧
      (∀ c ∈ t2, c.isCreate = true) ∧
      (∀ c ∈ t3, c.isUpdate = true) := by
  cases hd : SetDiff.Diff kafkaKeyFunc oldSet newSet with
  | error m =>
    exact ⟨[], [], [], by simp [Process, hd], by simp, by simp, by simp⟩
  | ok dr =>
    cases h1 : (runDeletes conn sid ver dr.deleted).2 with
    | some e =>
      exact ⟨(runDeletes conn sid ver dr.deleted).1, [], [],
        by simp [Process, hd, h1],
        runDeletes_calls conn sid ver dr.deleted, by simp, by simp⟩
    | none =>
      cases h2 : (runCreates st conn sid ver dr.added).2 with
      | some e =>
        exact ⟨(runDeletes conn sid ver dr.deleted).1,
          (runCreates st conn sid ver dr.added).1, [],
          by simp [Process, hd, h1, h2],
          runDeletes_calls conn sid ver dr.deleted,
          runCreates_calls st conn sid ver dr.added, by simp⟩
      | none =>
        exact ⟨(runDeletes conn sid ver dr.deleted).1,
          (runCreates st conn sid ver dr.added).1,
          (runUpdates conn sid ver oldSet dr.modified).1,
          by simp [Process, hd, h1, h2],
          runDeletes_calls conn sid ver dr.deleted,
          runCreates_calls st conn sid ver dr.added,
          runUpdates_calls conn sid ver oldSet dr.modified⟩

/-- Claim C3: `deleteKafka` returns success when the underlying API call
answers with an HTTP error whose status code is 404, so deleting an absent
endpoint is not an error. -/
theorem deleteKafka_notFound_ok (conn : Conn) (i : DeleteKafkaInput)
    (h : conn (.delete i) = some (.httpError 404)) :
    deleteKafka conn i = none := by
  simp [deleteKafka, h]

/-- Witness for claim C3 at a concrete delete input against a client that
answers 404. -/
theorem deleteKafka_notFound_ok_witness :
    connAll404 (.delete ⟨"svc", 1, "endp"⟩) = some (.httpError 404) ∧
      deleteKafka connAll404 ⟨"svc", 1, "endp"⟩ = none :=
  ⟨rfl, deleteKafka_notFound_ok connAll404 ⟨"svc", 1, "endp"⟩ rfl⟩

/-- Claim C9: every map produced by `flattenKafka` contains no binding whose
value is the empty string; such fields are pruned before the record reaches
the state. -/
theorem flattenKafka_prunes_empty (l : List Kafka) (m : Record)
    (hm : m ∈ flattenKafka l) (p : String × Val) (hp : p ∈ m) :
    p.2 ≠ .vstr "" := by
  simp only [flattenKafka, List.mem_map] at hm
  obtain ⟨s, _, rfl⟩ := hm
  have hpred := List.of_mem_filter hp
  simpa using hpred

/-- Witness for claim C9: the flattening of `kafka0` keeps exactly the
non-string-empty fields, and its `name` binding is not the empty string. -/
theorem flattenKafka_prunes_empty_witness :
    flatKafka0 ∈ flattenKafka [kafka0] ∧
      (("name", Val.vstr "n") : String × Val) ∈ flatKafka0 ∧
      (("name", Val.vstr "n") : String × Val).2 ≠ Val.vstr "" :=
  ⟨by decide, by decide,
    flattenKafka_prunes_empty [kafka0] flatKafka0 (by decide)
      ("name", Val.vstr "n") (by decide)⟩

/-- Claim C8: a record of the Added partition whose `name` entry is absent or
is the empty string is skipped silently by the create loop, wherever it occurs
in the list: both the trace and the returned error are those of the list
without it. -/
theorem runCreates_skips_nameless (st : ServiceType) (conn : Conn)
    (sid : String) (ver : Int) (r : Resource) (rs1 rs2 : List Resource)
    (h : Record.find r.asMap "name" = none ∨
      Record.find r.asMap "name" = some (.vstr "")) :
    runCreates st conn sid ver (rs1 ++ r :: rs2) =
      runCreates st conn sid ver (rs1 ++ rs2) := by
  have hskip : Record.find r.asMap "name" = none ∨
      ∃ v, Record.find r.asMap "name" = some v ∧ v.asString = "" := by
    rcases h with h | h
    · exact Or.inl h
    · exact Or.inr ⟨_, h, rfl⟩
  induction rs1 with
  | nil => simpa using runCreates_cons_skip st conn sid ver r rs2 hskip
  | cons r1 rs1 ih =>
    rw [List.cons_append, List.cons_append]
    cases hn : Record.find r1.asMap "name" with
    | none =>
      rw [runCreates_cons_skip st conn sid ver r1 _ (Or.inl hn),
        runCreates_cons_skip st conn sid ver r1 _ (Or.inl hn)]
      exact ih
    | some v =>
      by_cases hv : v.asString = ""
      · rw [runCreates_cons_skip st conn sid ver r1 _ (Or.inr ⟨v, hn, hv⟩),
          runCreates_cons_skip st conn sid ver r1 _ (Or.inr ⟨v, hn, hv⟩)]
        exact ih
      · cases hc : createKafka conn (buildCreate st r1.asMap sid ver) with
        | some e =>
          rw [runCreates_cons_err st conn sid ver r1 _ v e hn hv hc,
            runCreates_cons_err st conn sid ver r1 _ v e hn hv hc]
        | none =>
          rw [runCreates_cons_ok st conn sid ver r1 _ v hn hv hc,
            runCreates_cons_ok st conn sid ver r1 _ v hn hv hc, ih]

/-- Witness for claim C8: a record with an empty name in the middle of the
added list is skipped. -/
theorem runCreates_skips_nameless_witness :
    (Record.find (Resource.rmap [("name", Val.vstr "")]).asMap "name" = none ∨
      Record.find (Resource.rmap [("name", Val.vstr "")]).asMap "name" =
        some (.vstr "")) ∧
    runCreates .vcl connAll404 "svc" 1
        ([Resource.rmap [("name", Val.vstr "a")]] ++
          Resource.rmap [("name", Val.vstr "")] ::
            [Resource.rmap [("name", Val.vstr "b")]]) =
      runCreates .vcl connAll404 "svc" 1
        ([Resource.rmap [("name", Val.vstr "a")]] ++
          [Resource.rmap [("name", Val.vstr "b")]]) :=
  ⟨Or.inr (by decide),
    runCreates_skips_nameless .vcl connAll404 "svc" 1 _ _ _ (Or.inr (by decide))⟩

/-- Claim C7: the key extractor reads exactly the `name` entry, and every API
input built by the handler identifies its target by the identity triple of
service id, service version and the record's `name` alone: the extractor and
the delete input depend only on that entry, and the create and update inputs
carry exactly that triple in their identity fields. -/
theorem reconciliation_name_keyed (st : ServiceType) (sid : String) (ver : Int)
    (t t2 m : Record) (h : Record.find t "name" = Record.find t2 "name") :
    kafkaKeyFunc (.rmap t) = kafkaKeyFunc (.rmap t2) ∧
    buildDelete t sid ver = buildDelete t2 sid ver ∧
    buildDelete t sid ver = ⟨sid, ver, (Record.get t "name").asString⟩ ∧
    (buildUpdateOpts sid ver t m).serviceID = sid ∧
    (buildUpdateOpts sid ver t m).serviceVersion = ver ∧
    (buildUpdateOpts sid ver t m).name = (Record.get t "name").asString ∧
    (buildCreate st t sid ver).serviceID = sid ∧
    (buildCreate st t sid ver).serviceVersion = ver ∧
    (buildCreate st t sid ver).name = (Record.get t "name").asString := by
  refine ⟨?_, ?_, rfl, rfl, rfl, rfl, rfl, rfl, rfl⟩
  · simp [kafkaKeyFunc, Record.get, h]
  · simp [buildDelete, Record.get, h]

/-- Witness for claim C7 at two concrete records that agree on `name`. -/
theorem reconciliation_name_keyed_witness :
    Record.find [("name", Val.vstr "a")] "name" =
      Record.find [("name", Val.vstr "a"), ("topic", Val.vstr "t")] "name" ∧
    kafkaKeyFunc (.rmap [("name", Val.vstr "a")]) =
      kafkaKeyFunc (.rmap [("name", Val.vstr "a"), ("topic", Val.vstr "t")]) ∧
    buildDelete [("name", Val.vstr "a")] "svc" 1 =
      buildDelete [("name", Val.vstr "a"), ("topic", Val.vstr "t")] "svc" 1 :=
  ⟨by decide,
    (reconciliation_name_keyed .vcl "svc" 1 [("name", Val.vstr "a")]
      [("name", Val.vstr "a"), ("topic", Val.vstr "t")] [] (by decide)).1,
    (reconciliation_name_keyed .vcl "svc" 1 [("name", Val.vstr "a")]
      [("name", Val.vstr "a"), ("topic", Val.vstr "t")] [] (by decide)).2.1⟩

theorem keyedList_error_of_bad (l : List Resource)
    (hl : ∃ r ∈ l, ∀ rec, r ≠ .rmap rec) :
    ∃ m, keyedList kafkaKeyFunc l = .error m := by
  induction l with
  | nil => simp at hl
  | cons r rs ih =>
    cases r with
    | other s => exact ⟨_, rfl⟩
    | rmap rec =>
      rcases hl with ⟨r0, hr0, hbad⟩
      rcases List.mem_cons.mp hr0 with h | h
      · exact absurd h (hbad rec)
      · obtain ⟨m, hm⟩ := ih ⟨r0, h, hbad⟩
        exact ⟨m, by simp [keyedList, kafkaKeyFunc, hm]⟩

theorem diff_error_of_bad (old new : List Resource)
    (hb : ∃ r ∈ old ++ new, ∀ rec, r ≠ .rmap rec) :
    ∃ m, SetDiff.Diff kafkaKeyFunc old new = .error m := by
  rcases hb with ⟨r, hr, hbad⟩
  rcases List.mem_append.mp hr with h | h
  · obtain ⟨m, hm⟩ := keyedList_error_of_bad old ⟨r, h, hbad⟩
    exact ⟨m, by simp [SetDiff.Diff, hm]⟩
  · cases ho : keyedList kafkaKeyFunc old with
    | error m => exact ⟨m, by simp [SetDiff.Diff, ho]⟩
    | ok l =>
      obtain ⟨m, hm⟩ := keyedList_error_of_bad new ⟨r, h, hbad⟩
      exact ⟨m, by simp [SetDiff.Diff, ho, hm]⟩

/-- Claim C5: a record that is not a map makes the key extractor fail, so the
diff aborts with an error and `Process` returns that error having issued no
API call. -/
theorem process_aborts_on_bad_resource (st : ServiceType) (conn : Conn)
    (sid : String) (ver : Int) (old new : List Resource) (r : Resource)
    (hr : r ∈ old ++ new) (hbad : ∀ rec, r ≠ Resource.rmap rec) :
    ∃ m, SetDiff.Diff kafkaKeyFunc old new = .error m ∧
      Process st conn sid ver old new = ([], some (.diffErr m)) := by
  obtain ⟨m, hm⟩ := diff_error_of_bad old new ⟨r, hr, hbad⟩
  exact ⟨m, hm, by simp [Process, hm]⟩

/-- Witness for claim C5: a non-map element in the new set aborts the pass
before any API call. -/
theorem process_aborts_on_bad_resource_witness :
    (Resource.other "x") ∈
        ([Resource.rmap [("name", Val.vstr "a")]] : List Resource) ++
          [Resource.other "x"] ∧
    (∀ rec, Resource.other "x" ≠ Resource.rmap rec) ∧
    ∃ m, SetDiff.Diff kafkaKeyFunc [Resource.rmap [("name", Val.vstr "a")]]
          [Resource.other "x"] = .error m ∧
        Process .vcl connAll404 "svc" 1 [Resource.rmap [("name", Val.vstr "a")]]
          [Resource.other "x"] = ([], some (.diffErr m)) :=
  ⟨by simp, by intro rec h; simp at h,
    process_aborts_on_bad_resource .vcl connAll404 "svc" 1
      [Resource.rmap [("name", Val.vstr "a")]] [Resource.other "x"]
      (Resource.other "x") (by simp) (by intro rec h; simp at h)⟩

/-!  Lemmas about `Record.find` over filtered records, for the update frame
condition. -/

theorem keys_filter_subset (ps : Record) (pred : String × Val → Bool)
    (k : String) (h : k ∈ Record.keys (ps.filter pred)) :
    k ∈ Record.keys ps := by
  simp only [Record.keys, List.mem_map] at h ⊢
  obtain ⟨x, hx, rfl⟩ := h
  exact ⟨x, List.mem_of_mem_filter hx, rfl⟩

theorem find_filter_of_nodup (res : Record) (pred : String × Val → Bool)
    (hnd : (Record.keys res).Nodup) (k : String) :
    Record.find (res.filter pred) k =
      match Record.find res k with
      | some v => if pred (k, v) then some v else none
      | none => none := by
  induction res with
  | nil => simp [Record.find]
  | cons p ps ih =>
    obtain ⟨k1, v1⟩ := p
    have hkeys : Record.keys ((k1, v1) :: ps) = k1 :: Record.keys ps := rfl
    rw [hkeys] at hnd
    have hk1 : k1 ∉ Record.keys ps := (List.nodup_cons.mp hnd).1
    have hnd2 : (Record.keys ps).Nodup := (List.nodup_cons.mp hnd).2
    by_cases hp : pred (k1, v1)
    · rw [List.filter_cons_of_pos hp]
      by_cases hk : k1 = k
      · subst hk
        simp [Record.find, hp]
      · simp only [Record.find, if_neg hk]
        exact ih hnd2
    · rw [List.filter_cons_of_neg hp]
      by_cases hk : k1 = k
      · subst hk
        have h2 : Record.find (ps.filter pred) k1 = none := by
          rw [find_eq_none_iff]
          intro hmem
          exact hk1 (keys_filter_subset ps pred k1 hmem)
        simp [Record.find, hp, h2]
      · simp only [Record.find, if_neg hk]
        exact ih hnd2

theorem filter_isSome (res o : Record) (old : List Resource)
    (hnd : (Record.keys res).Nodup)
    (hmatch : SetDiff.matchOld kafkaKeyFunc res old = some o) (k : String) :
    (Record.find (SetDiff.Filter kafkaKeyFunc res old) k).isSome =
      ((Record.find res k).isSome &&
        !(decide (Record.find o k = Record.find res k))) := by
  simp only [SetDiff.Filter, hmatch]
  rw [find_filter_of_nodup res _ hnd k]
  cases hf : Record.find res k with
  | none => simp
  | some v =>
    by_cases ho : Record.find o k = some v
    · simp [ho]
    · simp [ho]

/-- Claim C6: the update input built by `Process` for a modified record sets
exactly the fields whose value differs between the old and the new record (as
selected by `Filter`); every other optional field stays nil, while the service
id, service version and name are always set. -/
theorem update_frame (sid : String) (ver : Int) (res o : Record)
    (old : List Resource) (hnd : (Record.keys res).Nodup)
    (hmatch : SetDiff.matchOld kafkaKeyFunc res old = some o) :
    (buildUpdateOpts sid ver res
        (SetDiff.Filter kafkaKeyFunc res old)).serviceID = sid ∧
    (buildUpdateOpts sid ver res
        (SetDiff.Filter kafkaKeyFunc res old)).serviceVersion = ver ∧
    (buildUpdateOpts sid ver res
        (SetDiff.Filter kafkaKeyFunc res old)).name =
      (Record.get res "name").asString ∧
    ∀ k ∈ updateFieldKeys,
      fieldIsSet (buildUpdateOpts sid ver res
          (SetDiff.Filter kafkaKeyFunc res old)) k =
        ((Record.find res k).isSome &&
          !(decide (Record.find o k = Record.find res k))) := by
  refine ⟨rfl, rfl, rfl, ?_⟩
  intro k hk
  have hfi := filter_isSome res o old hnd hmatch
  fin_cases hk <;>
    simpa [fieldIsSet, buildUpdateOpts, Option.isSome_map] using hfi _

/-- Witness for claim C6 at a concrete modified record whose `topic` changed
and whose `brokers` did not. -/
theorem update_frame_witness :
    (Record.keys
        [("name", Val.vstr "a"), ("topic", Val.vstr "t2"),
          ("brokers", Val.vstr "b")]).Nodup ∧
    SetDiff.matchOld kafkaKeyFunc
        [("name", Val.vstr "a"), ("topic", Val.vstr "t2"),
          ("brokers", Val.vstr "b")]
        [Resource.rmap
          [("name", Val.vstr "a"), ("topic", Val.vstr "t1"),
            ("brokers", Val.vstr "b")]] =
      some
        [("name", Val.vstr "a"), ("topic", Val.vstr "t1"),
          ("brokers", Val.vstr "b")] ∧
    ∀ k ∈ updateFieldKeys,
      fieldIsSet (buildUpdateOpts "svc" 1
          [("name", Val.vstr "a"), ("topic", Val.vstr "t2"),
            ("brokers", Val.vstr "b")]
          (SetDiff.Filter kafkaKeyFunc
            [("name", Val.vstr "a"), ("topic", Val.vstr "t2"),
              ("brokers", Val.vstr "b")]
            [Resource.rmap
              [("name", Val.vstr "a"), ("topic", Val.vstr "t1"),
                ("brokers", Val.vstr "b")]])) k =
        ((Record.find
            [("name", Val.vstr "a"), ("topic", Val.vstr "t2"),
              ("brokers", Val.vstr "b")] k).isSome &&
          !(decide (Record.find
              [("name", Val.vstr "a"), ("topic", Val.vstr "t1"),
                ("brokers", Val.vstr "b")] k =
            Record.find
              [("name", Val.vstr "a"), ("topic", Val.vstr "t2"),
                ("brokers", Val.vstr "b")] k))) :=
  ⟨by decide, by decide,
    (update_frame "svc" 1
      [("name", Val.vstr "a"), ("topic", Val.vstr "t2"),
        ("brokers", Val.vstr "b")]
      [("name", Val.vstr "a"), ("topic", Val.vstr "t1"),
        ("brokers", Val.vstr "b")]
      [Resource.rmap
        [("name", Val.vstr "a"), ("topic", Val.vstr "t1"),
          ("brokers", Val.vstr "b")]]
      (by decide) (by decide)).2.2.2⟩

/-!  Lemmas about keyed lists and the diff partitions. -/

theorem keyedList_ok_spec (keyFunc : Resource → Except String Val)
    (l : List Resource) (kl : List (Val × Resource))
    (h : keyedList keyFunc l = .ok kl) :
    kl.map Prod.snd = l ∧ ∀ p ∈ kl, keyFunc p.2 = .ok p.1 := by
  induction l generalizing kl with
  | nil =>
    simp only [keyedList, Except.ok.injEq] at h
    subst h
    simp
  | cons r rs ih =>
    simp only [keyedList] at h
    cases hk : keyFunc r with
    | error m => simp [hk] at h
    | ok k =>
      simp only [hk] at h
      cases hrest : keyedList keyFunc rs with
      | error m => simp [hrest] at h
      | ok l2 =>
        simp only [hrest, Except.ok.injEq] at h
        subst h
        obtain ⟨h1, h2⟩ := ih l2 hrest
        refine ⟨by simp [h1], ?_⟩
        intro p hp
        rcases List.mem_cons.mp hp with hp | hp
        · subst hp; exact hk
        · exact h2 p hp

theorem hasKey_iff (k : Val) (kl : List (Val × Resource)) :
    hasKey k kl = true ↔ ∃ r, (k, r) ∈ kl := by
  induction kl with
  | nil => simp [hasKey]
  | cons p ps ih =>
    by_cases h : p.1 = k
    · simp only [hasKey, if_pos h, true_iff]
      exact ⟨p.2, by rw [← h]; exact List.mem_cons_self p ps⟩
    · simp only [hasKey, if_neg h]
      rw [ih]
      constructor
      · rintro ⟨r, hr⟩
        exact ⟨r, List.mem_cons_of_mem p hr⟩
      · rintro ⟨r, hr⟩
        rcases List.mem_cons.mp hr with hr | hr
        · exact absurd (by rw [← hr]) h
        · exact ⟨r, hr⟩

theorem findByKey_none_iff (k : Val) (kl : List (Val × Resource)) :
    findByKey k kl = none ↔ hasKey k kl = false := by
  induction kl with
  | nil => simp [findByKey, hasKey]
  | cons p ps ih =>
    by_cases h : p.1 = k
    · simp [findByKey, hasKey, h]
    · simp [findByKey, hasKey, h, ih]

theorem findByKey_mem (k : Val) (kl : List (Val × Resource)) (r : Resource)
    (h : findByKey k kl = some r) : (k, r) ∈ kl := by
  induction kl with
  | nil => simp [findByKey] at h
  | cons p ps ih =>
    by_cases hp : p.1 = k
    · rw [findByKey, if_pos hp] at h
      injection h with h
      subst h
      rw [← hp]
      exact List.mem_cons_self p ps
    · rw [findByKey, if_neg hp] at h
      exact List.mem_cons_of_mem p (ih h)

theorem findByKey_of_mem_nodup (k : Val) (kl : List (Val × Resource))
    (r : Resource) (hnd : (kl.map Prod.fst).Nodup) (h : (k, r) ∈ kl) :
    findByKey k kl = some r := by
  induction kl with
  | nil => simp at h
  | cons p ps ih =>
    rw [List.map_cons, List.nodup_cons] at hnd
    rcases List.mem_cons.mp h with h | h
    · rw [findByKey, ← h]
      simp
    · have hpk : p.1 ≠ k := by
        intro hk
        exact hnd.1 (hk ▸ List.mem_map_of_mem Prod.fst h)
      rw [findByKey, if_neg hpk]
      exact ih hnd.2 h

theorem mem_snd_filter (kl : List (Val × Resource))
    (q : Val × Resource → Bool) (r : Resource) :
    r ∈ (kl.filter q).map Prod.snd ↔ ∃ k, (k, r) ∈ kl ∧ q (k, r) = true := by
  simp only [List.mem_map, List.mem_filter]
  constructor
  · rintro ⟨⟨k, r2⟩, ⟨hm, hq⟩, rfl⟩
    exact ⟨k, hm, hq⟩
  · rintro ⟨k, hm, hq⟩
    exact ⟨(k, r), ⟨hm, hq⟩, rfl⟩

theorem diff_ok_elim (keyFunc : Resource → Except String Val)
    (old new : List Resource) (dr : DiffResult)
    (h : SetDiff.Diff keyFunc old new = .ok dr) :
    ∃ okl nkl, keyedList keyFunc old = .ok okl ∧
      keyedList keyFunc new = .ok nkl ∧
      dr.added = (nkl.filter fun p => !hasKey p.1 okl).map Prod.snd ∧
      dr.deleted = (okl.filter fun p => !hasKey p.1 nkl).map Prod.snd ∧
      dr.modified = (nkl.filter fun p =>
          match findByKey p.1 okl with
          | some o => !resourceEq o p.2
          | none => false).map Prod.snd ∧
      dr.unmodified = (nkl.filter fun p =>
          match findByKey p.1 okl with
          | some o => resourceEq o p.2
          | none => false).map Prod.snd := by
  unfold SetDiff.Diff at h
  cases ho : keyedList keyFunc old with
  | error m => simp [ho] at h
  | ok okl =>
    simp only [ho] at h
    cases hn : keyedList keyFunc new with
    | error m => simp [hn] at h
    | ok nkl =>
      simp only [hn, Except.ok.injEq] at h
      subst h
      exact ⟨okl, nkl, rfl, rfl, rfl, rfl, rfl, rfl⟩

theorem recEq_refl (a : Record) : recEq a a = true := by
  simp [recEq, List.all_eq_true]

theorem resourceEq_refl (r : Resource) : resourceEq r r = true := by
  cases r with
  | rmap a => simp [resourceEq, recEq_refl]
  | other s => simp [resourceEq]

/-- Claim C2: for disjoint old and new record sets keyed by a total extractor
that is injective within each set, the diff partitions satisfy: a record is in
the new set exactly when it is in Added, Modified or unchanged; every old
record is in Deleted or matched by key by a Modified or unchanged record, and
conversely Deleted lies in the old set and every Modified or unchanged record
matches an old record by key (Modified and unchanged carry the new version of
a record, so the old set is covered up to the key); and no record belongs to
more than one of Added, Deleted, Modified. -/
theorem diff_partitions (keyFunc : Resource → Except String Val)
    (old new : List Resource) (dr : DiffResult)
    (htot : ∀ r ∈ old ++ new, ∃ k, keyFunc r = .ok k)
    (hinjO : ∀ r1 ∈ old, ∀ r2 ∈ old, keyFunc r1 = keyFunc r2 → r1 = r2)
    (hinjN : ∀ r1 ∈ new, ∀ r2 ∈ new, keyFunc r1 = keyFunc r2 → r1 = r2)
    (hdisj : ∀ r1 ∈ old, ∀ r2 ∈ new, resourceEq r1 r2 = false)
    (hd : SetDiff.Diff keyFunc old new = .ok dr) :
    (∀ r, r ∈ new ↔ (r ∈ dr.added ∨ r ∈ dr.modified ∨ r ∈ dr.unmodified)) ∧
    (∀ r ∈ old, r ∈ dr.deleted ∨
      ∃ r2, (r2 ∈ dr.modified ∨ r2 ∈ dr.unmodified) ∧
        keyFunc r2 = keyFunc r) ∧
    (∀ r ∈ dr.deleted, r ∈ old) ∧
    (∀ r2, (r2 ∈ dr.modified ∨ r2 ∈ dr.unmodified) →
      ∃ r ∈ old, keyFunc r = keyFunc r2) ∧
    (∀ r, ¬(r ∈ dr.added ∧ r ∈ dr.deleted)) ∧
    (∀ r, ¬(r ∈ dr.added ∧ r ∈ dr.modified)) ∧
    (∀ r, ¬(r ∈ dr.deleted ∧ r ∈ dr.modified)) := by
  obtain ⟨okl, nkl, ho, hn, ha, hdel, hmod, hunm⟩ :=
    diff_ok_elim keyFunc old new dr hd
  obtain ⟨hosnd, hokey⟩ := keyedList_ok_spec keyFunc old okl ho
  obtain ⟨hnsnd, hnkey⟩ := keyedList_ok_spec keyFunc new nkl hn
  have hmemN : ∀ r : Resource, r ∈ new ↔ ∃ k, (k, r) ∈ nkl := by
    intro r
    rw [← hnsnd]
    simp only [List.mem_map]
    constructor
    · rintro ⟨⟨k, r2⟩, hm, rfl⟩
      exact ⟨k, hm⟩
    · rintro ⟨k, hm⟩
      exact ⟨(k, r), hm, rfl⟩
  have hmemO : ∀ r : Resource, r ∈ old ↔ ∃ k, (k, r) ∈ okl := by
    intro r
    rw [← hosnd]
    simp only [List.mem_map]
    constructor
    · rintro ⟨⟨k, r2⟩, hm, rfl⟩
      exact ⟨k, hm⟩
    · rintro ⟨k, hm⟩
      exact ⟨(k, r), hm, rfl⟩
  refine ⟨?_, ?_, ?_, ?_, ?_, ?_, ?_⟩
  · intro r
    constructor
    · intro hr
      obtain ⟨k, hk⟩ := (hmemN r).mp hr
      cases hfb : findByKey k okl with
      | none =>
        left
        rw [ha, mem_snd_filter]
        exact ⟨k, hk, by simp [(findByKey_none_iff k okl).mp hfb]⟩
      | some o =>
        by_cases he : resourceEq o r = true
        · right; right
          rw [hunm, mem_snd_filter]
          exact ⟨k, hk, by simp [hfb, he]⟩
        · right; left
          rw [hmod, mem_snd_filter]
          exact ⟨k, hk, by simp [hfb]; simpa using he⟩
    · intro hr
      rcases hr with hr | hr | hr
      · rw [ha, mem_snd_filter] at hr
        obtain ⟨k, hk, _⟩ := hr
        exact (hmemN r).mpr ⟨k, hk⟩
      · rw [hmod, mem_snd_filter] at hr
        obtain ⟨k, hk, _⟩ := hr
        exact (hmemN r).mpr ⟨k, hk⟩
      · rw [hunm, mem_snd_filter] at hr
        obtain ⟨k, hk, _⟩ := hr
        exact (hmemN r).mpr ⟨k, hk⟩
  · intro r hr
    obtain ⟨k, hk⟩ := (hmemO r).mp hr
    by_cases hhk : hasKey k nkl = true
    · right
      obtain ⟨r2, hr2⟩ := (hasKey_iff k nkl).mp hhk
      cases hfb : findByKey k okl with
      | none =>
        exfalso
        have h1 : hasKey k okl = false := (findByKey_none_iff k okl).mp hfb
        have h2 : hasKey k okl = true := (hasKey_iff k okl).mpr ⟨r, hk⟩
        rw [h1] at h2
        exact Bool.noConfusion h2
      | some o =>
        by_cases he : resourceEq o r2 = true
        · refine ⟨r2, Or.inr ?_, ?_⟩
          · rw [hunm, mem_snd_filter]
            exact ⟨k, hr2, by simp [hfb, he]⟩
          · rw [hnkey (k, r2) hr2, hokey (k, r) hk]
        · refine ⟨r2, Or.inl ?_, ?_⟩
          · rw [hmod, mem_snd_filter]
            exact ⟨k, hr2, by simp [hfb]; simpa using he⟩
          · rw [hnkey (k, r2) hr2, hokey (k, r) hk]
    · left
      rw [hdel, mem_snd_filter]
      refine ⟨k, hk, ?_⟩
      rw [Bool.not_eq_true] at hhk
      simp [hhk]
  · intro r hr
    rw [hdel, mem_snd_filter] at hr
    obtain ⟨k, hk, _⟩ := hr
    exact (hmemO r).mpr ⟨k, hk⟩
  · intro r2 hr2
    rcases hr2 with hr2 | hr2
    · rw [hmod, mem_snd_filter] at hr2
      obtain ⟨k, hk, hq⟩ := hr2
      cases hfb : findByKey k okl with
      | none => rw [hfb] at hq; simp at hq
      | some o =>
        rw [hfb] at hq
        refine ⟨o, (hmemO o).mpr ⟨k, findByKey_mem k okl o hfb⟩, ?_⟩
        rw [hokey (k, o) (findByKey_mem k okl o hfb), hnkey (k, r2) hk]
    · rw [hunm, mem_snd_filter] at hr2
      obtain ⟨k, hk, hq⟩ := hr2
      cases hfb : findByKey k okl with
      | none => rw [hfb] at hq; simp at hq
      | some o =>
        rw [hfb] at hq
        refine ⟨o, (hmemO o).mpr ⟨k, findByKey_mem k okl o hfb⟩, ?_⟩
        rw [hokey (k, o) (findByKey_mem k okl o hfb), hnkey (k, r2) hk]
  · rintro r ⟨hra, hrd⟩
    rw [ha, mem_snd_filter] at hra
    rw [hdel, mem_snd_filter] at hrd
    obtain ⟨k, hkn, hq⟩ := hra
    obtain ⟨k2, hko, _⟩ := hrd
    have hkk : k = k2 := by
      have h1 := hnkey (k, r) hkn
      have h2 := hokey (k2, r) hko
      rw [h1] at h2
      exact Except.ok.inj h2
    subst hkk
    have h3 : hasKey k okl = true := (hasKey_iff k okl).mpr ⟨r, hko⟩
    rw [h3] at hq
    simp at hq
  · rintro r ⟨hra, hrm⟩
    rw [ha, mem_snd_filter] at hra
    rw [hmod, mem_snd_filter] at hrm
    obtain ⟨k, hkn, hq⟩ := hra
    obtain ⟨k2, hkn2, hq2⟩ := hrm
    have hkk : k = k2 := by
      have h1 := hnkey (k, r) hkn
      have h2 := hnkey (k2, r) hkn2
      rw [h1] at h2
      exact Except.ok.inj h2
    subst hkk
    cases hfb : findByKey k okl with
    | none => rw [hfb] at hq2; simp at hq2
    | some o =>
      have h3 : hasKey k okl = true := by
        have := findByKey_mem k okl o hfb
        exact (hasKey_iff k okl).mpr ⟨o, this⟩
      rw [h3] at hq
      simp at hq
  · rintro r ⟨hrd, hrm⟩
    rw [hdel, mem_snd_filter] at hrd
    rw [hmod, mem_snd_filter] at hrm
    obtain ⟨k, hko, hq⟩ := hrd
    obtain ⟨k2, hkn2, _⟩ := hrm
    have hkk : k = k2 := by
      have h1 := hokey (k, r) hko
      have h2 := hnkey (k2, r) hkn2
      rw [h1] at h2
      exact Except.ok.inj h2
    subst hkk
    have h3 : hasKey k nkl = true := (hasKey_iff k nkl).mpr ⟨r, hkn2⟩
    rw [h3] at hq
    simp at hq

theorem deleteKafka_some (conn : Conn) (i : DeleteKafkaInput) (e : ApiError)
    (h : deleteKafka conn i = some e) :
    conn (.delete i) = some e ∧ callOK conn (.delete i) = false := by
  unfold deleteKafka at h
  cases hc : conn (.delete i) with
  | none => simp [hc] at h
  | some err =>
    cases err with
    | httpError code =>
      simp only [hc] at h
      by_cases h404 : code = 404
      · simp [h404] at h
      · rw [if_pos h404] at h
        injection h with h
        subst h
        exact ⟨rfl, by simp [callOK, hc, h404]⟩
    | otherError m =>
      simp only [hc] at h
      injection h with h
      subst h
      exact ⟨rfl, by simp [callOK, hc]⟩

theorem deleteKafka_none (conn : Conn) (i : DeleteKafkaInput)
    (h : deleteKafka conn i = none) : callOK conn (.delete i) = true := by
  unfold deleteKafka at h
  cases hc : conn (.delete i) with
  | none => simp [callOK, hc]
  | some err =>
    cases err with
    | httpError code =>
      simp only [hc] at h
      by_cases h404 : code = 404
      · simp [callOK, hc, h404]
      · rw [if_pos h404] at h
        cases h
    | otherError m =>
      simp only [hc] at h
      cases h

theorem runDeletes_spec (conn : Conn) (sid : String) (ver : Int)
    (rs : List Resource) :
    ((runDeletes conn sid ver rs).2 = none ∧
      ∀ c ∈ (runDeletes conn sid ver rs).1, callOK conn c = true) ∨
    (∃ pre c e, (runDeletes conn sid ver rs).1 = pre ++ [c] ∧
      (runDeletes conn sid ver rs).2 = some (.apiErr e) ∧
      (∀ c2 ∈ pre, callOK conn c2 = true) ∧
      conn c = some e ∧ callOK conn c = false) := by
  induction rs with
  | nil => exact Or.inl ⟨rfl, by simp [runDeletes]⟩
  | cons r rs ih =>
    cases hdel : deleteKafka conn (buildDelete r.asMap sid ver) with
    | some e =>
      right
      rw [runDeletes_cons_err conn sid ver r rs e hdel]
      obtain ⟨hconn, hbad⟩ := deleteKafka_some conn _ e hdel
      exact ⟨[], .delete (buildDelete r.asMap sid ver), e, by simp, rfl,
        by simp, hconn, hbad⟩
    | none =>
      rw [runDeletes_cons_ok conn sid ver r rs hdel]
      have hok := deleteKafka_none conn _ hdel
      rcases ih with ⟨h2, hall⟩ | ⟨pre, c, e, h1, h2, hpre, hc, hbad⟩
      · left
        refine ⟨h2, ?_⟩
        intro c hc2
        rcases List.mem_cons.mp hc2 with rfl | hc2
        · exact hok
        · exact hall c hc2
      · right
        refine ⟨.delete (buildDelete r.asMap sid ver) :: pre, c, e,
          by simp [h1], h2, ?_, hc, hbad⟩
        intro c2 hc2
        rcases List.mem_cons.mp hc2 with rfl | hc2
        · exact hok
        · exact hpre c2 hc2

theorem runCreates_spec (st : ServiceType) (conn : Conn) (sid : String)
    (ver : Int) (rs : List Resource) :
    ((runCreates st conn sid ver rs).2 = none ∧
      ∀ c ∈ (runCreates st conn sid ver rs).1, callOK conn c = true) ∨
    (∃ pre c e, (runCreates st conn sid ver rs).1 = pre ++ [c] ∧
      (runCreates st conn sid ver rs).2 = some (.apiErr e) ∧
      (∀ c2 ∈ pre, callOK conn c2 = true) ∧
      conn c = some e ∧ callOK conn c = false) := by
  induction rs with
  | nil => exact Or.inl ⟨rfl, by simp [runCreates]⟩
  | cons r rs ih =>
    cases hn : Record.find r.asMap "name" with
    | none =>
      rw [runCreates_cons_skip st conn sid ver r rs (Or.inl hn)]
      exact ih
    | some v =>
      by_cases hv : v.asString = ""
      · rw [runCreates_cons_skip st conn sid ver r rs (Or.inr ⟨v, hn, hv⟩)]
        exact ih
      · cases hce : createKafka conn (buildCreate st r.asMap sid ver) with
        | some e =>
          right
          rw [runCreates_cons_err st conn sid ver r rs v e hn hv hce]
          have hconn : conn (.create (buildCreate st r.asMap sid ver)) = some e := hce
          refine ⟨[], .create (buildCreate st r.asMap sid ver), e, by simp, rfl,
            by simp, hconn, ?_⟩
          cases e <;> simp [callOK, hconn]
        | none =>
          rw [runCreates_cons_ok st conn sid ver r rs v hn hv hce]
          have hok : callOK conn (.create (buildCreate st r.asMap sid ver)) = true := by
            simp [callOK, show conn (.create (buildCreate st r.asMap sid ver)) = none from hce]
          rcases ih with ⟨h2, hall⟩ | ⟨pre, c, e, h1, h2, hpre, hc, hbad⟩
          · left
            refine ⟨h2, ?_⟩
            intro c hc2
            rcases List.mem_cons.mp hc2 with rfl | hc2
            · exact hok
            · exact hall c hc2
          · right
            refine ⟨.create (buildCreate st r.asMap sid ver) :: pre, c, e,
              by simp [h1], h2, ?_, hc, hbad⟩
            intro c2 hc2
            rcases List.mem_cons.mp hc2 with rfl | hc2
            · exact hok
            · exact hpre c2 hc2

theorem runUpdates_spec (conn : Conn) (sid : String) (ver : Int)
    (oldSet : List Resource) (rs : List Resource) :
    ((runUpdates conn sid ver oldSet rs).2 = none ∧
      ∀ c ∈ (runUpdates conn sid ver oldSet rs).1, callOK conn c = true) ∨
    (∃ pre c e, (runUpdates conn sid ver oldSet rs).1 = pre ++ [c] ∧
      (runUpdates conn sid ver oldSet rs).2 = some (.apiErr e) ∧
      (∀ c2 ∈ pre, callOK conn c2 = true) ∧
      conn c = some e ∧ callOK conn c = false) := by
  induction rs with
  | nil => exact Or.inl ⟨rfl, by simp [runUpdates]⟩
  | cons r rs ih =>
    cases hu : conn (.update (buildUpdateOpts sid ver r.asMap
        (SetDiff.Filter kafkaKeyFunc r.asMap oldSet))) with
    | some e =>
      right
      rw [runUpdates_cons_err conn sid ver oldSet r rs e hu]
      refine ⟨[], .update (buildUpdateOpts sid ver r.asMap
        (SetDiff.Filter kafkaKeyFunc r.asMap oldSet)), e, by simp, rfl,
        by simp, hu, ?_⟩
      cases e <;> simp [callOK, hu]
    | none =>
      rw [runUpdates_cons_ok conn sid ver oldSet r rs hu]
      have hok : callOK conn (.update (buildUpdateOpts sid ver r.asMap
          (SetDiff.Filter kafkaKeyFunc r.asMap oldSet))) = true := by
        simp [callOK, hu]
      rcases ih with ⟨h2, hall⟩ | ⟨pre, c, e, h1, h2, hpre, hc, hbad⟩
      · left
        refine ⟨h2, ?_⟩
        intro c hc2
        rcases List.mem_cons.mp hc2 with rfl | hc2
        · exact hok
        · exact hall c hc2
      · right
        refine ⟨.update (buildUpdateOpts sid ver r.asMap
          (SetDiff.Filter kafkaKeyFunc r.asMap oldSet)) :: pre, c, e,
          by simp [h1], h2, ?_, hc, hbad⟩
        intro c2 hc2
        rcases List.mem_cons.mp hc2 with rfl | hc2
        · exact hok
        · exact hpre c2 hc2

/-- Claim C4: when `Process` returns an API error, that error is exactly the
one the client answered on the last call of the trace, returned unchanged,
every earlier call of the trace succeeded (counting 404 on delete as
success), and no call was attempted after the failing one. -/
theorem process_error_prefix (st : ServiceType) (conn : Conn) (sid : String)
    (ver : Int) (old new : List Resource) (tr : List ApiCall) (e : ApiError)
    (h : Process st conn sid ver old new = (tr, some (.apiErr e))) :
    ∃ pre c, tr = pre ++ [c] ∧ (∀ c2 ∈ pre, callOK conn c2 = true) ∧
      conn c = some e ∧ callOK conn c = false := by
  unfold Process at h
  cases hd : SetDiff.Diff kafkaKeyFunc old new with
  | error m =>
    simp only [hd] at h
    injection h with h1 h2
    injection h2 with h2
    cases h2
  | ok dr =>
    simp only [hd] at h
    cases h1 : (runDeletes conn sid ver dr.deleted).2 with
    | some e2 =>
      simp only [h1] at h
      injection h with htr herr
      injection herr with herr
      rcases runDeletes_spec conn sid ver dr.deleted with ⟨h2, _⟩ |
        ⟨pre, c, e3, hsplit, h2, hpre, hc, hbad⟩
      · rw [h2] at h1
        cases h1
      · rw [h2] at h1
        injection h1 with h1
        rw [herr] at h1
        injection h1 with h1
        subst h1
        exact ⟨pre, c, by rw [← htr, hsplit], hpre, hc, hbad⟩
    | none =>
      simp only [h1] at h
      cases h2 : (runCreates st conn sid ver dr.added).2 with
      | some e2 =>
        simp only [h2] at h
        injection h with htr herr
        injection herr with herr
        rcases runDeletes_spec conn sid ver dr.deleted with ⟨_, hallD⟩ |
          ⟨pre, c, e3, hsplit, h3, hpre, hc, hbad⟩
        · rcases runCreates_spec st conn sid ver dr.added with ⟨h3, _⟩ |
            ⟨pre, c, e3, hsplit, h3, hpre, hc, hbad⟩
          · rw [h3] at h2
            cases h2
          · rw [h3] at h2
            injection h2 with h2
            rw [herr] at h2
            injection h2 with h2
            subst h2
            refine ⟨(runDeletes conn sid ver dr.deleted).1 ++ pre, c,
              by rw [← htr, hsplit, List.append_assoc], ?_, hc, hbad⟩
            intro c2 hc2
            rcases List.mem_append.mp hc2 with hc2 | hc2
            · exact hallD c2 hc2
            · exact hpre c2 hc2
        · rw [h3] at h1
          cases h1
      | none =>
        simp only [h2] at h
        injection h with htr herr
        rcases runDeletes_spec conn sid ver dr.deleted with ⟨_, hallD⟩ |
          ⟨preD, cD, eD, hsplitD, h3, hpreD, hcD, hbadD⟩
        · rcases runCreates_spec st conn sid ver dr.added with ⟨_, hallC⟩ |
            ⟨preC, cC, eC, hsplitC, h3, hpreC, hcC, hbadC⟩
          · rcases runUpdates_spec conn sid ver old dr.modified with ⟨h3, _⟩ |
              ⟨pre, c, e3, hsplit, h3, hpre, hc, hbad⟩
            · rw [h3] at herr
              cases herr
            · rw [h3] at herr
              injection herr with herr
              injection herr with herr
              subst herr
              refine ⟨(runDeletes conn sid ver dr.deleted).1 ++
                ((runCreates st conn sid ver dr.added).1 ++ pre), c, ?_, ?_, hc, hbad⟩
              · rw [← htr, hsplit]
                simp [List.append_assoc]
              · intro c2 hc2
                rcases List.mem_append.mp hc2 with hc2 | hc2
                · exact hallD c2 hc2
                · rcases List.mem_append.mp hc2 with hc2 | hc2
                  · exact hallC c2 hc2
                  · exact hpre c2 hc2
          · rw [h3] at h2
            cases h2
        · rw [h3] at h1
          cases h1

/-- Witness for claim C4: a pass that needs one create against a client that
fails creates returns exactly that error with the failing call last. -/
theorem process_error_prefix_witness :
    Process .vcl connFailCreate "svc" 1 []
        [Resource.rmap [("name", Val.vstr "a")]] =
      ((Process .vcl connFailCreate "svc" 1 []
          [Resource.rmap [("name", Val.vstr "a")]]).1,
        some (.apiErr (.otherError "boom"))) ∧
    ∃ pre c,
      (Process .vcl connFailCreate "svc" 1 []
          [Resource.rmap [("name", Val.vstr "a")]]).1 = pre ++ [c] ∧
      (∀ c2 ∈ pre, callOK connFailCreate c2 = true) ∧
      connFailCreate c = some (.otherError "boom") ∧
      callOK connFailCreate c = false :=
  ⟨rfl,
    process_error_prefix .vcl connFailCreate "svc" 1 []
      [Resource.rmap [("name", Val.vstr "a")]]
      (Process .vcl connFailCreate "svc" 1 []
        [Resource.rmap [("name", Val.vstr "a")]]).1
      (.otherError "boom") rfl⟩

theorem keyedList_rmap (l : List Resource)
    (hl : ∀ r ∈ l, ∃ rec, r = .rmap rec) :
    keyedList kafkaKeyFunc l = .ok (l.map fun r => (nameKey r, r)) := by
  induction l with
  | nil => rfl
  | cons r rs ih =>
    obtain ⟨rec, hrec⟩ := hl r (List.mem_cons_self r rs)
    subst hrec
    rw [List.map_cons]
    simp [keyedList, kafkaKeyFunc,
      ih fun r2 hr2 => hl r2 (List.mem_cons_of_mem _ hr2), nameKey,
      Resource.asMap]

theorem runDeletes_ok_trace (conn : Conn) (sid : String) (ver : Int)
    (hconn : ∀ c, conn c = none) (rs : List Resource) :
    runDeletes conn sid ver rs =
      (rs.map fun r => .delete (buildDelete r.asMap sid ver), none) := by
  induction rs with
  | nil => rfl
  | cons r rs ih =>
    have hdel : deleteKafka conn (buildDelete r.asMap sid ver) = none := by
      simp [deleteKafka, hconn]
    rw [runDeletes_cons_ok conn sid ver r rs hdel, ih]
    simp

theorem runCreates_ok_trace (st : ServiceType) (conn : Conn) (sid : String)
    (ver : Int) (hconn : ∀ c, conn c = none) (rs : List Resource) :
    runCreates st conn sid ver rs =
      ((rs.filter hasRealName).map fun r =>
        .create (buildCreate st r.asMap sid ver), none) := by
  induction rs with
  | nil => rfl
  | cons r rs ih =>
    cases hn : Record.find r.asMap "name" with
    | none =>
      rw [runCreates_cons_skip st conn sid ver r rs (Or.inl hn),
        List.filter_cons_of_neg (by simp [hasRealName, hn])]
      exact ih
    | some v =>
      by_cases hv : v.asString = ""
      · rw [runCreates_cons_skip st conn sid ver r rs (Or.inr ⟨v, hn, hv⟩),
          List.filter_cons_of_neg (by simp [hasRealName, hn, hv])]
        exact ih
      · have hce : createKafka conn (buildCreate st r.asMap sid ver) = none :=
          hconn _
        rw [runCreates_cons_ok st conn sid ver r rs v hn hv hce,
          List.filter_cons_of_pos (by simp [hasRealName, hn, hv]), ih]
        simp

theorem runUpdates_ok_trace (conn : Conn) (sid : String) (ver : Int)
    (oldSet : List Resource) (hconn : ∀ c, conn c = none)
    (rs : List Resource) :
    runUpdates conn sid ver oldSet rs =
      (rs.map fun r => .update (buildUpdateOpts sid ver r.asMap
        (SetDiff.Filter kafkaKeyFunc r.asMap oldSet)), none) := by
  induction rs with
  | nil => rfl
  | cons r rs ih =>
    rw [runUpdates_cons_ok conn sid ver oldSet r rs (hconn _), ih]
    simp

theorem mem_keyed_map (l : List Resource) (k : Val) (r : Resource) :
    (k, r) ∈ (l.map fun r2 => (nameKey r2, r2)) ↔ r ∈ l ∧ k = nameKey r := by
  simp only [List.mem_map, Prod.mk.injEq]
  constructor
  · rintro ⟨r2, hr2, hk, rfl⟩
    exact ⟨hr2, hk.symm⟩
  · rintro ⟨hr, rfl⟩
    exact ⟨r, hr, rfl, rfl⟩

theorem hasKey_mapped (l : List Resource) (k : Val) :
    hasKey k (l.map fun r => (nameKey r, r)) = true ↔
      ∃ r2 ∈ l, nameKey r2 = k := by
  rw [hasKey_iff]
  constructor
  · rintro ⟨r, hr⟩
    obtain ⟨hrl, hk⟩ := (mem_keyed_map l k r).mp hr
    exact ⟨r, hrl, hk.symm⟩
  · rintro ⟨r2, hr2, hk⟩
    exact ⟨r2, (mem_keyed_map l k r2).mpr ⟨hr2, hk.symm⟩⟩

theorem bnot_true (b : Bool) : (!b) = true ↔ b = false := by
  cases b <;> simp

/-- Counterexample to claim C1 as stated: with an empty old set and a new set
holding one record whose name is the empty string, the record is in the new
set and absent from the old set, yet the create loop skips it (the StateFunc
defunct-diff workaround) and no create call appears in the trace. -/
theorem process_exact_calls_cex : ¬ C1Statement := by
  intro h
  obtain ⟨hcre, _, _⟩ := h .vcl connOK "svc" 1 []
    [Resource.rmap [("name", Val.vstr "")]]
    (by intro r hr
        simp only [List.nil_append, List.mem_cons, List.not_mem_nil,
          or_false] at hr
        subst hr
        exact ⟨[("name", Val.vstr "")], "", rfl, rfl⟩)
    (by intro r1 h1; simp at h1)
    (by intro r1 h1 r2 h2 _
        simp only [List.mem_cons, List.not_mem_nil, or_false] at h1 h2
        rw [h1, h2])
    (fun c => rfl)
  have h2 := (hcre (Resource.rmap [("name", Val.vstr "")])
      (List.mem_cons_self _ _)).mp
    (by rintro ⟨r2, hr2, _⟩; simp at hr2)
  have h3 : (Process .vcl connOK "svc" 1 []
      [Resource.rmap [("name", Val.vstr "")]]).1 = [] := rfl
  rw [h3] at h2
  simp at h2

/-- Claim C1 (amended): as claim C1 states, except that among the records
present in the new set and absent from the old set only those with a nonempty
name receive a create call (records with an empty or absent name are skipped
by the create loop, which is claim C8). -/
theorem process_exact_calls (st : ServiceType) (conn : Conn) (sid : String)
    (ver : Int) (old new : List Resource)
    (hmap : ∀ r ∈ old ++ new, ∃ rec s, r = Resource.rmap rec ∧
      Record.find rec "name" = some (Val.vstr s))
    (hndO : ∀ r1 ∈ old, ∀ r2 ∈ old, nameKey r1 = nameKey r2 → r1 = r2)
    (hndN : ∀ r1 ∈ new, ∀ r2 ∈ new, nameKey r1 = nameKey r2 → r1 = r2)
    (hconn : ∀ c, conn c = none) :
    (∀ r ∈ new,
      (((¬ ∃ r2 ∈ old, nameKey r2 = nameKey r) ∧ nameKey r ≠ Val.vstr "") ↔
        .create (buildCreate st r.asMap sid ver) ∈
          (Process st conn sid ver old new).1)) ∧
    (∀ r ∈ old,
      ((¬ ∃ r2 ∈ new, nameKey r2 = nameKey r) ↔
        .delete (buildDelete r.asMap sid ver) ∈
          (Process st conn sid ver old new).1)) ∧
    (∀ r ∈ new,
      ((∃ r2 ∈ old, nameKey r2 = nameKey r ∧ resourceEq r2 r = false) ↔
        .update (buildUpdateOpts sid ver r.asMap
            (SetDiff.Filter kafkaKeyFunc r.asMap old)) ∈
          (Process st conn sid ver old new).1)) := by
  have hmapO : ∀ r ∈ old, ∃ rec s, r = Resource.rmap rec ∧
      Record.find rec "name" = some (Val.vstr s) :=
    fun r hr => hmap r (List.mem_append.mpr (Or.inl hr))
  have hmapN : ∀ r ∈ new, ∃ rec s, r = Resource.rmap rec ∧
      Record.find rec "name" = some (Val.vstr s) :=
    fun r hr => hmap r (List.mem_append.mpr (Or.inr hr))
  have hstrO : ∀ r ∈ old, ∃ s, nameKey r = Val.vstr s := by
    intro r hr
    obtain ⟨rec, s, rfl, hfind⟩ := hmapO r hr
    exact ⟨s, by simp [nameKey, Resource.asMap, Record.get, hfind]⟩
  have hstrN : ∀ r ∈ new, ∃ s, nameKey r = Val.vstr s := by
    intro r hr
    obtain ⟨rec, s, rfl, hfind⟩ := hmapN r hr
    exact ⟨s, by simp [nameKey, Resource.asMap, Record.get, hfind]⟩
  have hnameO : ∀ r1 r2 : Resource, (∃ s, nameKey r1 = Val.vstr s) →
      (∃ s, nameKey r2 = Val.vstr s) →
      (Record.get r1.asMap "name").asString =
        (Record.get r2.asMap "name").asString →
      nameKey r1 = nameKey r2 := by
    rintro r1 r2 ⟨s1, hs1⟩ ⟨s2, hs2⟩ he
    have he1 : Record.get r1.asMap "name" = nameKey r1 := rfl
    have he2 : Record.get r2.asMap "name" = nameKey r2 := rfl
    rw [he1, he2, hs1, hs2] at he
    simp only [Val.asString] at he
    rw [hs1, hs2, he]
  have ho : keyedList kafkaKeyFunc old =
      .ok (old.map fun r => (nameKey r, r)) := by
    apply keyedList_rmap
    intro r hr
    obtain ⟨rec, _, h1, _⟩ := hmapO r hr
    exact ⟨rec, h1⟩
  have hn : keyedList kafkaKeyFunc new =
      .ok (new.map fun r => (nameKey r, r)) := by
    apply keyedList_rmap
    intro r hr
    obtain ⟨rec, _, h1, _⟩ := hmapN r hr
    exact ⟨rec, h1⟩
  obtain ⟨dr, hdiff⟩ : ∃ dr, SetDiff.Diff kafkaKeyFunc old new = .ok dr := by
    unfold SetDiff.Diff
    rw [ho, hn]
    exact ⟨_, rfl⟩
  obtain ⟨okl, nkl, ho2, hn2, ha, hdel, hmod, _⟩ :=
    diff_ok_elim kafkaKeyFunc old new dr hdiff
  rw [ho] at ho2
  injection ho2 with ho2
  rw [hn] at hn2
  injection hn2 with hn2
  subst ho2
  subst hn2
  have hproc : (Process st conn sid ver old new).1 =
      (dr.deleted.map fun r => ApiCall.delete (buildDelete r.asMap sid ver)) ++
        ((dr.added.filter hasRealName).map fun r =>
          ApiCall.create (buildCreate st r.asMap sid ver)) ++
        (dr.modified.map fun r => ApiCall.update (buildUpdateOpts sid ver
          r.asMap (SetDiff.Filter kafkaKeyFunc r.asMap old))) := by
    unfold Process
    simp only [hdiff, runDeletes_ok_trace conn sid ver hconn,
      runCreates_ok_trace st conn sid ver hconn,
      runUpdates_ok_trace conn sid ver old hconn]
  have hAdd : ∀ r2, r2 ∈ dr.added ↔
      (r2 ∈ new ∧ ¬ ∃ r3 ∈ old, nameKey r3 = nameKey r2) := by
    intro r2
    rw [ha, mem_snd_filter]
    constructor
    · rintro ⟨k, hk, hq⟩
      obtain ⟨hr2, rfl⟩ := (mem_keyed_map new k r2).mp hk
      refine ⟨hr2, ?_⟩
      intro hex
      rw [bnot_true] at hq
      rw [(hasKey_mapped old (nameKey r2)).mpr hex] at hq
      cases hq
    · rintro ⟨hr2, hnex⟩
      refine ⟨nameKey r2, (mem_keyed_map new _ r2).mpr ⟨hr2, rfl⟩, ?_⟩
      rw [bnot_true]
      cases hhk : hasKey (nameKey r2) (old.map fun r => (nameKey r, r)) with
      | false => rfl
      | true => exact absurd ((hasKey_mapped old _).mp hhk) hnex
  have hDel : ∀ r2, r2 ∈ dr.deleted ↔
      (r2 ∈ old ∧ ¬ ∃ r3 ∈ new, nameKey r3 = nameKey r2) := by
    intro r2
    rw [hdel, mem_snd_filter]
    constructor
    · rintro ⟨k, hk, hq⟩
      obtain ⟨hr2, rfl⟩ := (mem_keyed_map old k r2).mp hk
      refine ⟨hr2, ?_⟩
      intro hex
      rw [bnot_true] at hq
      rw [(hasKey_mapped new (nameKey r2)).mpr hex] at hq
      cases hq
    · rintro ⟨hr2, hnex⟩
      refine ⟨nameKey r2, (mem_keyed_map old _ r2).mpr ⟨hr2, rfl⟩, ?_⟩
      rw [bnot_true]
      cases hhk : hasKey (nameKey r2) (new.map fun r => (nameKey r, r)) with
      | false => rfl
      | true => exact absurd ((hasKey_mapped new _).mp hhk) hnex
  have hMod : ∀ r2, r2 ∈ dr.modified ↔
      (r2 ∈ new ∧ ∃ o ∈ old, nameKey o = nameKey r2 ∧
        resourceEq o r2 = false) := by
    intro r2
    rw [hmod, mem_snd_filter]
    constructor
    · rintro ⟨k, hk, hq⟩
      obtain ⟨hr2, rfl⟩ := (mem_keyed_map new k r2).mp hk
      cases hfb : findByKey (nameKey r2) (old.map fun r => (nameKey r, r)) with
      | none => rw [hfb] at hq; simp at hq
      | some o =>
        rw [hfb] at hq
        have hmem := findByKey_mem _ _ _ hfb
        obtain ⟨hol, hkey⟩ := (mem_keyed_map old _ o).mp hmem
        refine ⟨hr2, o, hol, hkey.symm, ?_⟩
        rw [bnot_true] at hq
        exact hq
    · rintro ⟨hr2, o, hol, hkey, hne⟩
      refine ⟨nameKey r2, (mem_keyed_map new _ r2).mpr ⟨hr2, rfl⟩, ?_⟩
      cases hfb : findByKey (nameKey r2) (old.map fun r => (nameKey r, r)) with
      | none =>
        exfalso
        have h1 := (findByKey_none_iff _ _).mp hfb
        have h2 : hasKey (nameKey r2)
            (old.map fun r => (nameKey r, r)) = true :=
          (hasKey_mapped old _).mpr ⟨o, hol, hkey⟩
        rw [h1] at h2
        cases h2
      | some o2 =>
        have hmem := findByKey_mem _ _ _ hfb
        obtain ⟨hol2, hkey2⟩ := (mem_keyed_map old _ o2).mp hmem
        have ho2o : o2 = o := by
          apply hndO o2 hol2 o hol
          rw [← hkey2, hkey]
        rw [← ho2o] at hne
        show (!resourceEq o2 r2) = true
        rw [bnot_true]
        exact hne
  refine ⟨?_, ?_, ?_⟩
  · intro r hr
    constructor
    · rintro ⟨hno, hne⟩
      rw [hproc]
      apply List.mem_append.mpr
      apply Or.inl
      apply List.mem_append.mpr
      apply Or.inr
      apply List.mem_map.mpr
      refine ⟨r, ?_, rfl⟩
      apply List.mem_filter.mpr
      refine ⟨(hAdd r).mpr ⟨hr, hno⟩, ?_⟩
      obtain ⟨rec, s, hrec, hfind⟩ := hmapN r hr
      have hs : nameKey r = Val.vstr s := by
        rw [hrec]
        simp [nameKey, Resource.asMap, Record.get, hfind]
      have hsne : s ≠ "" := by
        intro hs0
        apply hne
        rw [hs, hs0]
      rw [hrec]
      simp [hasRealName, Resource.asMap, hfind, Val.asString, hsne]
    · intro hmem
      rw [hproc] at hmem
      rcases List.mem_append.mp hmem with hmem | hmem
      · rcases List.mem_append.mp hmem with hmem | hmem
        · obtain ⟨r2, _, heq⟩ := List.mem_map.mp hmem
          cases heq
        · obtain ⟨r2, hr2, heq⟩ := List.mem_map.mp hmem
          injection heq with heq
          have hr2f := List.mem_filter.mp hr2
          have hr2a := hr2f.1
          have hr2n : r2 ∈ new := ((hAdd r2).mp hr2a).1
          have hnames : (Record.get r2.asMap "name").asString =
              (Record.get r.asMap "name").asString :=
            congrArg CreateKafkaInput.name heq
          have hkeq : nameKey r2 = nameKey r :=
            hnameO r2 r (hstrN r2 hr2n) (hstrN r hr) hnames
          have hrr : r2 = r := hndN r2 hr2n r hr hkeq
          subst hrr
          refine ⟨((hAdd r2).mp hr2a).2, ?_⟩
          obtain ⟨rec, s, hrec, hfind⟩ := hmapN r2 hr2n
          have hreal := hr2f.2
          rw [hrec] at hreal
          simp only [hasRealName, Resource.asMap, hfind, Val.asString] at hreal
          rw [bnot_true, decide_eq_false_iff_not] at hreal
          intro hkey0
          rw [hrec] at hkey0
          simp only [nameKey, Resource.asMap, Record.get, hfind,
            Option.getD_some, Val.vstr.injEq] at hkey0
          exact hreal hkey0
      · obtain ⟨r2, _, heq⟩ := List.mem_map.mp hmem
        cases heq
  · intro r hr
    constructor
    · intro hno
      rw [hproc]
      apply List.mem_append.mpr
      apply Or.inl
      apply List.mem_append.mpr
      apply Or.inl
      apply List.mem_map.mpr
      exact ⟨r, (hDel r).mpr ⟨hr, hno⟩, rfl⟩
    · intro hmem
      rw [hproc] at hmem
      rcases List.mem_append.mp hmem with hmem | hmem
      · rcases List.mem_append.mp hmem with hmem | hmem
        · obtain ⟨r2, hr2, heq⟩ := List.mem_map.mp hmem
          injection heq with heq
          have hr2o : r2 ∈ old := ((hDel r2).mp hr2).1
          have hnames : (Record.get r2.asMap "name").asString =
              (Record.get r.asMap "name").asString :=
            congrArg DeleteKafkaInput.name heq
          have hkeq : nameKey r2 = nameKey r :=
            hnameO r2 r (hstrO r2 hr2o) (hstrO r hr) hnames
          have hrr : r2 = r := hndO r2 hr2o r hr hkeq
          subst hrr
          exact ((hDel r2).mp hr2).2
        · obtain ⟨r2, _, heq⟩ := List.mem_map.mp hmem
          cases heq
      · obtain ⟨r2, _, heq⟩ := List.mem_map.mp hmem
        cases heq
  · intro r hr
    constructor
    · rintro ⟨o, hol, hkey, hne⟩
      rw [hproc]
      apply List.mem_append.mpr
      apply Or.inr
      apply List.mem_map.mpr
      exact ⟨r, (hMod r).mpr ⟨hr, o, hol, hkey, hne⟩, rfl⟩
    · intro hmem
      rw [hproc] at hmem
      rcases List.mem_append.mp hmem with hmem | hmem
      · rcases List.mem_append.mp hmem with hmem | hmem
        · obtain ⟨r2, _, heq⟩ := List.mem_map.mp hmem
          cases heq
        · obtain ⟨r2, _, heq⟩ := List.mem_map.mp hmem
          cases heq
      · obtain ⟨r2, hr2, heq⟩ := List.mem_map.mp hmem
        injection heq with heq
        have hr2n : r2 ∈ new := ((hMod r2).mp hr2).1
        have hnames : (Record.get r2.asMap "name").asString =
            (Record.get r.asMap "name").asString :=
          congrArg UpdateKafkaInput.name heq
        have hkeq : nameKey r2 = nameKey r :=
          hnameO r2 r (hstrN r2 hr2n) (hstrN r hr) hnames
        have hrr : r2 = r := hndN r2 hr2n r hr hkeq
        subst hrr
        exact ((hMod r2).mp hr2).2

/-- Every record of the witness sets is a map with a string name. -/
theorem hmapC2 : ∀ r ∈ oldC2 ++ newC2, ∃ rec s, r = Resource.rmap rec ∧
    Record.find rec "name" = some (Val.vstr s) := by
  intro r hr
  simp only [oldC2, newC2, List.mem_append, List.mem_cons,
    List.not_mem_nil, or_false] at hr
  rcases hr with (rfl | rfl) | (rfl | rfl)
  · exact ⟨_, "a", rfl, rfl⟩
  · exact ⟨_, "b", rfl, rfl⟩
  · exact ⟨_, "a", rfl, rfl⟩
  · exact ⟨_, "c", rfl, rfl⟩

/-- Witness for claim C1 (amended) on the concrete sets with one added, one
deleted and one modified record, against a client that accepts every call. -/
theorem process_exact_calls_witness :
    (∀ r ∈ oldC2 ++ newC2, ∃ rec s, r = Resource.rmap rec ∧
      Record.find rec "name" = some (Val.vstr s)) ∧
    (∀ r1 ∈ oldC2, ∀ r2 ∈ oldC2, nameKey r1 = nameKey r2 → r1 = r2) ∧
    (∀ r1 ∈ newC2, ∀ r2 ∈ newC2, nameKey r1 = nameKey r2 → r1 = r2) ∧
    (∀ c, connOK c = none) ∧
    ((∀ r ∈ newC2,
      (((¬ ∃ r2 ∈ oldC2, nameKey r2 = nameKey r) ∧ nameKey r ≠ Val.vstr "") ↔
        .create (buildCreate .vcl r.asMap "svc" 1) ∈
          (Process .vcl connOK "svc" 1 oldC2 newC2).1)) ∧
     (∀ r ∈ oldC2,
      ((¬ ∃ r2 ∈ newC2, nameKey r2 = nameKey r) ↔
        .delete (buildDelete r.asMap "svc" 1) ∈
          (Process .vcl connOK "svc" 1 oldC2 newC2).1)) ∧
     (∀ r ∈ newC2,
      ((∃ r2 ∈ oldC2, nameKey r2 = nameKey r ∧ resourceEq r2 r = false) ↔
        .update (buildUpdateOpts "svc" 1 r.asMap
            (SetDiff.Filter kafkaKeyFunc r.asMap oldC2)) ∈
          (Process .vcl connOK "svc" 1 oldC2 newC2).1))) :=
  ⟨hmapC2, by decide, by decide, fun c => rfl,
    process_exact_calls .vcl connOK "svc" 1 oldC2 newC2 hmapC2
      (by decide) (by decide) (fun c => rfl)⟩

/-- Totality of the key extractor on the C2 witness sets. -/
theorem htotC2 : ∀ r ∈ oldC2 ++ newC2, ∃ k, kafkaKeyFunc r = .ok k := by
  intro r hr
  simp only [oldC2, newC2, List.mem_append, List.mem_cons,
    List.not_mem_nil, or_false] at hr
  rcases hr with (rfl | rfl) | (rfl | rfl) <;> exact ⟨_, rfl⟩

/-- Witness for claim C2 on a concrete pair of sets with one added, one
deleted and one modified record. -/
theorem diff_partitions_witness :
    (∀ r ∈ oldC2 ++ newC2, ∃ k, kafkaKeyFunc r = .ok k) ∧
    (∀ r1 ∈ oldC2, ∀ r2 ∈ oldC2, kafkaKeyFunc r1 = kafkaKeyFunc r2 → r1 = r2) ∧
    (∀ r1 ∈ newC2, ∀ r2 ∈ newC2, kafkaKeyFunc r1 = kafkaKeyFunc r2 → r1 = r2) ∧
    (∀ r1 ∈ oldC2, ∀ r2 ∈ newC2, resourceEq r1 r2 = false) ∧
    SetDiff.Diff kafkaKeyFunc oldC2 newC2 = .ok drC2 ∧
    (∀ r, r ∈ newC2 ↔ (r ∈ drC2.added ∨ r ∈ drC2.modified ∨ r ∈ drC2.unmodified)) ∧
    (∀ r ∈ oldC2, r ∈ drC2.deleted ∨
      ∃ r2, (r2 ∈ drC2.modified ∨ r2 ∈ drC2.unmodified) ∧
        kafkaKeyFunc r2 = kafkaKeyFunc r) :=
  ⟨htotC2, by decide, by decide, by decide, rfl,
    (diff_partitions kafkaKeyFunc oldC2 newC2 drC2 htotC2
      (by decide) (by decide) (by decide) rfl).1,
    (diff_partitions kafkaKeyFunc oldC2 newC2 drC2 htotC2
      (by decide) (by decide) (by decide) rfl).2.1⟩

end Fastly
